import Mathlib

/-!
# Verification of `expr`: linearisation of predicate trees into SQL text and arguments

Shallow embedding of `expr.go`.

* A Go `[]byte` / `string` is a `List Byte`; a byte is represented by its numeric value.
  A `nil` slice and an empty slice are both the empty list.
* A Go `interface{}` value is an element of an arbitrary type `V`.
* The `Handler` interface is a record of operations over a handler state type `H`; the
  pointer receiver `*PostgresHandler` becomes explicit state passing.
* `pq.Array` belongs to an external library and is a parameter `pqArray : List V → V`.
* The counter `idx int64` is an `Int`, incremented modulo `2^64` into the signed range.
-/

namespace Expr2SQL

/-! ## Bytes and literals -/

/-- A byte, represented by its numeric value. -/
abbrev Byte := Nat

/-- The bytes of an ASCII string literal of the source. -/
def ascii (s : String) : List Byte := s.toList.map Char.toNat

/-- The byte of an ASCII character literal of the source. -/
def byte (c : Char) : Byte := c.toNat

/-! ## Machine integers -/

/-- Two's complement reduction of an integer into the range of `int64`. -/
def wrapInt64 (x : Int) : Int := (x + 2 ^ 63) % 2 ^ 64 - 2 ^ 63

/-- The largest `int64`. -/
def maxInt64 : Int := 2 ^ 63 - 1

/-- The smallest `int64`. -/
def minInt64 : Int := -(2 ^ 63)

/-- Modelled from the spec: digit loop of the decimal rendering used by `AppendInt` (Go standard
library, not part of this repository). The digits of `n` are written from the last one
backwards in front of `acc`; `fuel` bounds the number of digits. -/
def decimalAux : Nat → Nat → List Byte → List Byte
  | 0, _, acc => acc
  | fuel + 1, n, acc =>
    if n / 10 = 0 then (byte '0' + n % 10) :: acc
    else decimalAux fuel (n / 10) ((byte '0' + n % 10) :: acc)

/-- Modelled from the spec: decimal rendering of a natural number used by `AppendInt` (`"0"` for
zero, no leading zeros otherwise). -/
def decimal (n : Nat) : List Byte := decimalAux (n + 1) n []

/-- Modelled from the spec: `strconv.AppendInt(dst, i, 10)` is the Go standard library and not
part of this repository; the spec describes the placeholder as "a sigil followed by the new
counter value in decimal". The rendering is the decimal digits of the magnitude, preceded by
`-` for a negative value. -/
def AppendInt (dst : List Byte) (i : Int) : List Byte :=
  if i < 0 then dst ++ byte '-' :: decimal i.natAbs else dst ++ decimal i.toNat

/-! ## Handlers -/

/-- The `Handler` interface: `NextPlaceholder` may change the handler (pointer receiver), so it
returns the new handler state with the buffer; `WrapSlice` only reads it. -/
structure Handler (H V : Type) where
  NextPlaceholder : H → List Byte → H × List Byte
  WrapSlice : H → List V → V

/-- The handler for PostgreSQL: `type PostgresHandler struct { idx int64 }`. -/
structure PostgresHandler where
  idx : Int
  deriving DecidableEq, Repr

/-- The handler made by `new(PostgresHandler)`: the zero value. -/
def PostgresHandler.fresh : PostgresHandler := ⟨0⟩

/-- The method `(*PostgresHandler).NextPlaceholder`: `h.idx++`, append `'$'`, then
`strconv.AppendInt(b, h.idx, 10)`. -/
def PostgresHandler.NextPlaceholder (h : PostgresHandler) (b : List Byte) :
    PostgresHandler × List Byte :=
  let h1 : PostgresHandler := ⟨wrapInt64 (h.idx + 1)⟩
  let b1 := b ++ [byte '$']
  (h1, AppendInt b1 h1.idx)

/-- The method `(*PostgresHandler).WrapSlice`: `pq.Array(sl)`. -/
def PostgresHandler.WrapSlice {V : Type} (pqArray : List V → V) (_h : PostgresHandler)
    (sl : List V) : V :=
  pqArray sl

/-- The type `*PostgresHandler` as an implementation of `Handler`. -/
def postgres {V : Type} (pqArray : List V → V) : Handler PostgresHandler V where
  NextPlaceholder := PostgresHandler.NextPlaceholder
  WrapSlice := PostgresHandler.WrapSlice pqArray

/-! ## Expressions -/

/-- The AST: the nine types implementing `Expr`. -/
inductive Expr (V : Type) where
  | Eq (Ident : List Byte) (Value : V)
  | Neq (Ident : List Byte) (Value : V)
  | EqAny (Ident : List Byte) (Values : List V)
  | NeqAll (Ident : List Byte) (Values : List V)
  | And (Exprs : List (Expr V))
  | Or (Exprs : List (Expr V))
  | IsNull (Ident : List Byte)
  | IsNotNull (Ident : List Byte)
  | Lt (Ident : List Byte) (Value : V)

/-- What a call of `Linearise` leaves behind: the handler after the call and the two returned
slices. -/
structure Out (H V : Type) where
  h : H
  b : List Byte
  args : List V

mutual
/-- The method `Linearise` of each node type. -/
def Linearise {H V : Type} (hd : Handler H V) : Expr V → H → List Byte → List V → Out H V
  | .Eq Ident Value, h, b, args =>
    let b := b ++ Ident
    let b := b ++ ascii " = "
    let r := hd.NextPlaceholder h b
    ⟨r.1, r.2, args ++ [Value]⟩
  | .Neq Ident Value, h, b, args =>
    let b := b ++ Ident
    let b := b ++ ascii " <> "
    let r := hd.NextPlaceholder h b
    ⟨r.1, r.2, args ++ [Value]⟩
  | .EqAny Ident Values, h, b, args =>
    let b := b ++ Ident
    let b := b ++ ascii " = ANY("
    let r := hd.NextPlaceholder h b
    ⟨r.1, r.2 ++ [byte ')'], args ++ [hd.WrapSlice r.1 Values]⟩
  | .NeqAll Ident Values, h, b, args =>
    let b := b ++ Ident
    let b := b ++ ascii " <> ALL("
    let r := hd.NextPlaceholder h b
    ⟨r.1, r.2 ++ [byte ')'], args ++ [hd.WrapSlice r.1 Values]⟩
  | .And Exprs, h, b, args =>
    let b := b ++ [byte '(']
    let r := LineariseRange hd (ascii " AND ") Exprs 0 h b args
    ⟨r.h, r.b ++ [byte ')'], r.args⟩
  | .Or Exprs, h, b, args =>
    let b := b ++ [byte '(']
    let r := LineariseRange hd (ascii " OR ") Exprs 0 h b args
    ⟨r.h, r.b ++ [byte ')'], r.args⟩
  | .IsNull Ident, h, b, args =>
    let b := b ++ Ident
    let b := b ++ ascii " IS NULL"
    ⟨h, b, args⟩
  | .IsNotNull Ident, h, b, args =>
    let b := b ++ Ident
    let b := b ++ ascii " IS NOT NULL"
    ⟨h, b, args⟩
  | .Lt Ident Value, h, b, args =>
    let b := b ++ Ident
    let b := b ++ ascii " < "
    let r := hd.NextPlaceholder h b
    ⟨r.1, r.2, args ++ [Value]⟩
/-- The loop `for i, expr := range e.Exprs` of `And.Linearise` and `Or.Linearise`, from index
`i` on: the joiner is appended when `i > 0`, then the child is linearised. -/
def LineariseRange {H V : Type} (hd : Handler H V) (joiner : List Byte) :
    List (Expr V) → Nat → H → List Byte → List V → Out H V
  | [], _, h, b, args => ⟨h, b, args⟩
  | expr :: rest, i, h, b, args =>
    let b := if i > 0 then b ++ joiner else b
    let r := Linearise hd expr h b args
    LineariseRange hd joiner rest (i + 1) r.h r.b r.args
end

/-- The method `(*PostgresHandler).ToSQL`. -/
def PostgresHandler.ToSQL {V : Type} (pqArray : List V → V) (h : PostgresHandler) (e : Expr V)
    (b : List Byte) (args : List V) : Out PostgresHandler V :=
  Linearise (postgres pqArray) e h b args

/-! ## Specification-side definitions

These follow the wording of the specification; the theorems below compare them with
`Linearise`. -/

/-- The text a child appends, for each child in order: child `i` is linearised on an empty
buffer and an empty argument list with the handler left by the children before it. -/
def childTexts {V : Type} (pqArray : List V → V) :
    List (Expr V) → PostgresHandler → List (List Byte)
  | [], _ => []
  | c :: cs, h =>
    (Linearise (postgres pqArray) c h [] []).b ::
      childTexts pqArray cs (Linearise (postgres pqArray) c h [] []).h

/-- The arguments a child appends, for each child in order, with the same threading of the
handler as `childTexts`. -/
def childArgs {V : Type} (pqArray : List V → V) :
    List (Expr V) → PostgresHandler → List (List V)
  | [], _ => []
  | c :: cs, h =>
    (Linearise (postgres pqArray) c h [] []).args ::
      childArgs pqArray cs (Linearise (postgres pqArray) c h [] []).h

mutual
/-- The arguments of the value-bearing leaves of a tree, depth first and left to right: `Eq`,
`Neq` and `Lt` give their value, `EqAny` and `NeqAll` give their wrapped sequence, `IsNull` and
`IsNotNull` give nothing. -/
def leafArgs {V : Type} (pqArray : List V → V) : Expr V → List V
  | .Eq _ Value => [Value]
  | .Neq _ Value => [Value]
  | .EqAny _ Values => [pqArray Values]
  | .NeqAll _ Values => [pqArray Values]
  | .And Exprs => leafArgsList pqArray Exprs
  | .Or Exprs => leafArgsList pqArray Exprs
  | .IsNull _ => []
  | .IsNotNull _ => []
  | .Lt _ Value => [Value]
/-- The arguments of the value-bearing leaves of a sequence of trees, in order. -/
def leafArgsList {V : Type} (pqArray : List V → V) : List (Expr V) → List V
  | [] => []
  | e :: es => leafArgs pqArray e ++ leafArgsList pqArray es
end

mutual
/-- The number of value-bearing leaves (`Eq`, `Neq`, `Lt`, `EqAny`, `NeqAll`) of a tree. -/
def valueLeaves {V : Type} : Expr V → Nat
  | .Eq _ _ => 1
  | .Neq _ _ => 1
  | .EqAny _ _ => 1
  | .NeqAll _ _ => 1
  | .And Exprs => valueLeavesList Exprs
  | .Or Exprs => valueLeavesList Exprs
  | .IsNull _ => 0
  | .IsNotNull _ => 0
  | .Lt _ _ => 1
/-- The number of value-bearing leaves of a sequence of trees. -/
def valueLeavesList {V : Type} : List (Expr V) → Nat
  | [] => 0
  | e :: es => valueLeaves e + valueLeavesList es
end

/-- A piece of emitted text: literal bytes, or the position of a placeholder together with the
argument bound to it. -/
inductive Token (V : Type) where
  | text (bs : List Byte)
  | placeholder (arg : V)

mutual
/-- The emitted text of a tree as a sequence of pieces, left to right, following the
per-variant description of the specification. -/
def tokens {V : Type} (pqArray : List V → V) : Expr V → List (Token V)
  | .Eq Ident Value => [.text Ident, .text (ascii " = "), .placeholder Value]
  | .Neq Ident Value => [.text Ident, .text (ascii " <> "), .placeholder Value]
  | .EqAny Ident Values =>
    [.text Ident, .text (ascii " = ANY("), .placeholder (pqArray Values), .text (ascii ")")]
  | .NeqAll Ident Values =>
    [.text Ident, .text (ascii " <> ALL("), .placeholder (pqArray Values), .text (ascii ")")]
  | .And Exprs => .text (ascii "(") :: (tokensJoined pqArray (ascii " AND ") Exprs 0
      ++ [.text (ascii ")")])
  | .Or Exprs => .text (ascii "(") :: (tokensJoined pqArray (ascii " OR ") Exprs 0
      ++ [.text (ascii ")")])
  | .IsNull Ident => [.text Ident, .text (ascii " IS NULL")]
  | .IsNotNull Ident => [.text Ident, .text (ascii " IS NOT NULL")]
  | .Lt Ident Value => [.text Ident, .text (ascii " < "), .placeholder Value]
/-- The pieces of the children from position `i` on, the joiner before every child but the
one at position `0`. -/
def tokensJoined {V : Type} (pqArray : List V → V) (joiner : List Byte) :
    List (Expr V) → Nat → List (Token V)
  | [], _ => []
  | e :: es, i =>
    (if i > 0 then [.text joiner] else []) ++
      (tokens pqArray e ++ tokensJoined pqArray joiner es (i + 1))
end

/-- The arguments bound to the placeholders of a sequence of pieces, in textual order. -/
def placeholderArgs {V : Type} : List (Token V) → List V
  | [] => []
  | .text _ :: ts => placeholderArgs ts
  | .placeholder arg :: ts => arg :: placeholderArgs ts

/-- The text of a sequence of pieces when every placeholder is obtained from the handler by
`NextPlaceholder`, left to right; the handler after the last one is returned with it. -/
def renderTokens {V : Type} : List (Token V) → PostgresHandler → PostgresHandler × List Byte
  | [], h => (h, [])
  | .text bs :: ts, h => ((renderTokens ts h).1, bs ++ (renderTokens ts h).2)
  | .placeholder _ :: ts, h =>
    ((renderTokens ts (h.NextPlaceholder []).1).1,
      (h.NextPlaceholder []).2 ++ (renderTokens ts (h.NextPlaceholder []).1).2)

/-- The text of a sequence of pieces when the placeholders are replaced, left to right, by the
given texts. -/
def fillTokens {V : Type} : List (Token V) → List (List Byte) → List Byte
  | [], _ => []
  | .text bs :: ts, ps => bs ++ fillTokens ts ps
  | .placeholder _ :: ts, [] => fillTokens ts []
  | .placeholder _ :: ts, p :: ps => p ++ fillTokens ts ps

/-- The placeholder texts `$(n+1)`, ..., `$(n+k)`. -/
def numberedPlaceholders (n : Int) (k : Nat) : List (List Byte) :=
  (List.range k).map (fun (j : Nat) => byte '$' :: AppendInt [] (n + 1 + Int.ofNat j))

/-- The counter values left by `m` successive calls of `NextPlaceholder` on one handler, in
call order. -/
def nextCounters : PostgresHandler → Nat → List Int
  | _, 0 => []
  | h, m + 1 => (h.NextPlaceholder []).1.idx :: nextCounters (h.NextPlaceholder []).1 m

/-- Whether a byte is an ASCII decimal digit. -/
def isDigit (c : Byte) : Bool := decide (byte '0' ≤ c) && decide (c ≤ byte '9')

/-- For every `$` byte of a text, in textual order, the text that follows it. -/
def dollarSuffixes : List Byte → List (List Byte)
  | [] => []
  | c :: rest => if c = byte '$' then rest :: dollarSuffixes rest else dollarSuffixes rest

/-- The longest run of decimal digits at the start of a text. -/
def digitRun (t : List Byte) : List Byte := t.takeWhile isDigit

mutual
/-- No identifier of the tree contains a `$` byte. -/
def identsDollarFree {V : Type} : Expr V → Bool
  | .Eq Ident _ => !Ident.contains (byte '$')
  | .Neq Ident _ => !Ident.contains (byte '$')
  | .EqAny Ident _ => !Ident.contains (byte '$')
  | .NeqAll Ident _ => !Ident.contains (byte '$')
  | .And Exprs => identsDollarFreeList Exprs
  | .Or Exprs => identsDollarFreeList Exprs
  | .IsNull Ident => !Ident.contains (byte '$')
  | .IsNotNull Ident => !Ident.contains (byte '$')
  | .Lt Ident _ => !Ident.contains (byte '$')
/-- No identifier of the trees of a sequence contains a `$` byte. -/
def identsDollarFreeList {V : Type} : List (Expr V) → Bool
  | [] => true
  | e :: es => identsDollarFree e && identsDollarFreeList es
end

/-- No literal piece contains a `$` byte. -/
def textsDollarFree {V : Type} : List (Token V) → Bool
  | [] => true
  | .text bs :: ts => !bs.contains (byte '$') && textsDollarFree ts
  | .placeholder _ :: ts => textsDollarFree ts

/-- The pieces are empty, or start with a literal piece whose first byte is not a digit. -/
def startsClean {V : Type} : List (Token V) → Bool
  | [] => true
  | .text (c :: _) :: _ => !isDigit c
  | _ => false

/-- Every placeholder is the last piece or is followed by a literal piece whose first byte is
not a digit. -/
def separated {V : Type} : List (Token V) → Bool
  | [] => true
  | .text _ :: ts => separated ts
  | .placeholder _ :: ts => startsClean ts && separated ts

mutual
/-- The tree with every `Value` replaced by the unit value and every `Values` by the empty
sequence: its shape, the variant of every node and the identifiers. -/
def eraseValues {V : Type} : Expr V → Expr Unit
  | .Eq Ident _ => .Eq Ident ()
  | .Neq Ident _ => .Neq Ident ()
  | .EqAny Ident _ => .EqAny Ident []
  | .NeqAll Ident _ => .NeqAll Ident []
  | .And Exprs => .And (eraseValuesList Exprs)
  | .Or Exprs => .Or (eraseValuesList Exprs)
  | .IsNull Ident => .IsNull Ident
  | .IsNotNull Ident => .IsNotNull Ident
  | .Lt Ident _ => .Lt Ident ()
/-- The sequence of trees with their values erased. -/
def eraseValuesList {V : Type} : List (Expr V) → List (Expr Unit)
  | [] => []
  | e :: es => eraseValues e :: eraseValuesList es
end

/-- A piece without the argument bound to it. -/
def Token.shape {V : Type} : Token V → Token Unit
  | .text bs => .text bs
  | .placeholder _ => .placeholder ()

mutual
/-- The number of nested calls of `Linearise` a tree needs: `1` for a leaf, one more than the
deepest child for `And` and `Or`. -/
def depth {V : Type} : Expr V → Nat
  | .Eq _ _ => 1
  | .Neq _ _ => 1
  | .EqAny _ _ => 1
  | .NeqAll _ _ => 1
  | .And Exprs => depthList Exprs + 1
  | .Or Exprs => depthList Exprs + 1
  | .IsNull _ => 1
  | .IsNotNull _ => 1
  | .Lt _ _ => 1
/-- The depth of the deepest tree of a sequence. -/
def depthList {V : Type} : List (Expr V) → Nat
  | [] => 0
  | e :: es => max (depth e) (depthList es)
end

/-- The loop of `And.Linearise` and `Or.Linearise` over a child call `f` that may fail to
return. -/
def LineariseRangeFuel {H V : Type}
    (f : Expr V → H → List Byte → List V → Option (Out H V)) (joiner : List Byte) :
    List (Expr V) → Nat → H → List Byte → List V → Option (Out H V)
  | [], _, h, b, args => some ⟨h, b, args⟩
  | expr :: rest, i, h, b, args =>
    match f expr h (if i > 0 then b ++ joiner else b) args with
    | none => none
    | some r => LineariseRangeFuel f joiner rest (i + 1) r.h r.b r.args

/-- The method `Linearise` run with a bound on the depth of nested calls: `none` when the bound
is reached before the call returns. -/
def LineariseFuel {H V : Type} (hd : Handler H V) :
    Nat → Expr V → H → List Byte → List V → Option (Out H V)
  | 0, _, _, _, _ => none
  | _ + 1, .Eq Ident Value, h, b, args =>
    some ⟨(hd.NextPlaceholder h (b ++ Ident ++ ascii " = ")).1,
      (hd.NextPlaceholder h (b ++ Ident ++ ascii " = ")).2, args ++ [Value]⟩
  | _ + 1, .Neq Ident Value, h, b, args =>
    some ⟨(hd.NextPlaceholder h (b ++ Ident ++ ascii " <> ")).1,
      (hd.NextPlaceholder h (b ++ Ident ++ ascii " <> ")).2, args ++ [Value]⟩
  | _ + 1, .EqAny Ident Values, h, b, args =>
    some ⟨(hd.NextPlaceholder h (b ++ Ident ++ ascii " = ANY(")).1,
      (hd.NextPlaceholder h (b ++ Ident ++ ascii " = ANY(")).2 ++ [byte ')'],
      args ++ [hd.WrapSlice (hd.NextPlaceholder h (b ++ Ident ++ ascii " = ANY(")).1 Values]⟩
  | _ + 1, .NeqAll Ident Values, h, b, args =>
    some ⟨(hd.NextPlaceholder h (b ++ Ident ++ ascii " <> ALL(")).1,
      (hd.NextPlaceholder h (b ++ Ident ++ ascii " <> ALL(")).2 ++ [byte ')'],
      args ++ [hd.WrapSlice (hd.NextPlaceholder h (b ++ Ident ++ ascii " <> ALL(")).1 Values]⟩
  | fuel + 1, .And Exprs, h, b, args =>
    match LineariseRangeFuel (LineariseFuel hd fuel) (ascii " AND ") Exprs 0 h
        (b ++ [byte '(']) args with
    | none => none
    | some r => some ⟨r.h, r.b ++ [byte ')'], r.args⟩
  | fuel + 1, .Or Exprs, h, b, args =>
    match LineariseRangeFuel (LineariseFuel hd fuel) (ascii " OR ") Exprs 0 h
        (b ++ [byte '(']) args with
    | none => none
    | some r => some ⟨r.h, r.b ++ [byte ')'], r.args⟩
  | _ + 1, .IsNull Ident, h, b, args => some ⟨h, b ++ Ident ++ ascii " IS NULL", args⟩
  | _ + 1, .IsNotNull Ident, h, b, args => some ⟨h, b ++ Ident ++ ascii " IS NOT NULL", args⟩
  | _ + 1, .Lt Ident Value, h, b, args =>
    some ⟨(hd.NextPlaceholder h (b ++ Ident ++ ascii " < ")).1,
      (hd.NextPlaceholder h (b ++ Ident ++ ascii " < ")).2, args ++ [Value]⟩

/-! ## Auxiliary facts -/

theorem AppendInt_eq_append (dst : List Byte) (i : Int) :
    AppendInt dst i = dst ++ AppendInt [] i := by
  unfold AppendInt
  split <;> simp

theorem NextPlaceholder_eq_append (h : PostgresHandler) (b : List Byte) :
    h.NextPlaceholder b = ((h.NextPlaceholder []).1, b ++ (h.NextPlaceholder []).2) := by
  simp only [PostgresHandler.NextPlaceholder]
  rw [AppendInt_eq_append (b ++ [byte '$']), AppendInt_eq_append ([] ++ [byte '$'])]
  simp

theorem renderTokens_append {V : Type} (ts us : List (Token V)) (h : PostgresHandler) :
    renderTokens (ts ++ us) h =
      ((renderTokens us (renderTokens ts h).1).1,
        (renderTokens ts h).2 ++ (renderTokens us (renderTokens ts h).1).2) := by
  induction ts generalizing h with
  | nil => simp [renderTokens]
  | cons t ts ih =>
    cases t with
    | text bs => simp [renderTokens, ih]
    | placeholder arg => simp [renderTokens, ih]

theorem placeholderArgs_append {V : Type} (ts us : List (Token V)) :
    placeholderArgs (ts ++ us) = placeholderArgs ts ++ placeholderArgs us := by
  induction ts with
  | nil => simp [placeholderArgs]
  | cons t ts ih => cases t <;> simp [placeholderArgs, ih]

mutual
theorem Linearise_eq_tokens {V : Type} (pqArray : List V → V) (e : Expr V)
    (h : PostgresHandler) (b : List Byte) (a : List V) :
    Linearise (postgres pqArray) e h b a =
      ⟨(renderTokens (tokens pqArray e) h).1, b ++ (renderTokens (tokens pqArray e) h).2,
        a ++ placeholderArgs (tokens pqArray e)⟩ := by
  cases e with
  | Eq Ident Value =>
    simp only [Linearise, tokens, renderTokens, placeholderArgs, postgres]
    rw [NextPlaceholder_eq_append]; simp
  | Neq Ident Value =>
    simp only [Linearise, tokens, renderTokens, placeholderArgs, postgres]
    rw [NextPlaceholder_eq_append]; simp
  | EqAny Ident Values =>
    simp only [Linearise, tokens, renderTokens, placeholderArgs, postgres]
    rw [NextPlaceholder_eq_append]; simp [PostgresHandler.WrapSlice, ascii, byte]
  | NeqAll Ident Values =>
    simp only [Linearise, tokens, renderTokens, placeholderArgs, postgres]
    rw [NextPlaceholder_eq_append]; simp [PostgresHandler.WrapSlice, ascii, byte]
  | And Exprs =>
    simp only [Linearise, tokens, renderTokens]
    rw [LineariseRange_eq_tokens pqArray (ascii " AND ") Exprs 0 h (b ++ [byte '(']) a]
    simp [renderTokens_append, placeholderArgs_append, renderTokens, placeholderArgs, ascii, byte]
  | Or Exprs =>
    simp only [Linearise, tokens, renderTokens]
    rw [LineariseRange_eq_tokens pqArray (ascii " OR ") Exprs 0 h (b ++ [byte '(']) a]
    simp [renderTokens_append, placeholderArgs_append, renderTokens, placeholderArgs, ascii, byte]
  | IsNull Ident => simp [Linearise, tokens, renderTokens, placeholderArgs]
  | IsNotNull Ident => simp [Linearise, tokens, renderTokens, placeholderArgs]
  | Lt Ident Value =>
    simp only [Linearise, tokens, renderTokens, placeholderArgs, postgres]
    rw [NextPlaceholder_eq_append]; simp
theorem LineariseRange_eq_tokens {V : Type} (pqArray : List V → V) (joiner : List Byte)
    (es : List (Expr V)) (i : Nat) (h : PostgresHandler) (b : List Byte) (a : List V) :
    LineariseRange (postgres pqArray) joiner es i h b a =
      ⟨(renderTokens (tokensJoined pqArray joiner es i) h).1,
        b ++ (renderTokens (tokensJoined pqArray joiner es i) h).2,
        a ++ placeholderArgs (tokensJoined pqArray joiner es i)⟩ := by
  cases es with
  | nil => simp [LineariseRange, tokensJoined, renderTokens, placeholderArgs]
  | cons e es =>
    simp only [LineariseRange, tokensJoined]
    rw [Linearise_eq_tokens pqArray e, LineariseRange_eq_tokens pqArray joiner es (i + 1)]
    by_cases hi : i > 0
    · simp [hi, renderTokens_append, placeholderArgs_append, renderTokens, placeholderArgs]
    · simp [hi, renderTokens_append, placeholderArgs_append, renderTokens, placeholderArgs]
end

theorem Linearise_append {V : Type} (pqArray : List V → V) (e : Expr V)
    (h : PostgresHandler) (b : List Byte) (a : List V) :
    Linearise (postgres pqArray) e h b a =
      ⟨(Linearise (postgres pqArray) e h [] []).h,
        b ++ (Linearise (postgres pqArray) e h [] []).b,
        a ++ (Linearise (postgres pqArray) e h [] []).args⟩ := by
  rw [Linearise_eq_tokens pqArray e h b a, Linearise_eq_tokens pqArray e h [] []]
  simp

theorem intercalate_cons {α : Type} (sep t : List α) (ts : List (List α)) :
    List.intercalate sep (t :: ts) = t ++ (ts.map (fun u => sep ++ u)).flatten := by
  induction ts generalizing t with
  | nil => simp [List.intercalate, List.intersperse]
  | cons u us ih =>
    have hu := ih u
    simp only [List.intercalate] at hu ⊢
    simp [List.intersperse, hu]

theorem LineariseRange_pos {V : Type} (pqArray : List V → V) (joiner : List Byte)
    (cs : List (Expr V)) (i : Nat) (hi : 0 < i) (h : PostgresHandler) (b : List Byte)
    (a : List V) :
    (LineariseRange (postgres pqArray) joiner cs i h b a).b =
        b ++ ((childTexts pqArray cs h).map (fun u => joiner ++ u)).flatten ∧
      (LineariseRange (postgres pqArray) joiner cs i h b a).args =
        a ++ (childArgs pqArray cs h).flatten := by
  induction cs generalizing i h b a with
  | nil => simp [LineariseRange, childTexts, childArgs]
  | cons c cs ih =>
    simp only [LineariseRange, childTexts, childArgs, hi, if_true]
    rw [Linearise_append pqArray c h (b ++ joiner) a]
    have hr := ih (i + 1) (Nat.succ_pos i) (Linearise (postgres pqArray) c h [] []).h
      (b ++ joiner ++ (Linearise (postgres pqArray) c h [] []).b)
      (a ++ (Linearise (postgres pqArray) c h [] []).args)
    simp only [hr]
    simp

theorem LineariseRange_zero {V : Type} (pqArray : List V → V) (joiner : List Byte)
    (cs : List (Expr V)) (h : PostgresHandler) (b : List Byte) (a : List V) :
    (LineariseRange (postgres pqArray) joiner cs 0 h b a).b =
        b ++ List.intercalate joiner (childTexts pqArray cs h) ∧
      (LineariseRange (postgres pqArray) joiner cs 0 h b a).args =
        a ++ (childArgs pqArray cs h).flatten := by
  cases cs with
  | nil => simp [LineariseRange, childTexts, childArgs, List.intercalate, List.intersperse]
  | cons c cs =>
    simp only [LineariseRange, childTexts, childArgs, intercalate_cons]
    rw [Linearise_append pqArray c h _ a]
    have hr := LineariseRange_pos pqArray joiner cs (0 + 1) (Nat.succ_pos 0)
      (Linearise (postgres pqArray) c h [] []).h
      (b ++ (Linearise (postgres pqArray) c h [] []).b)
      (a ++ (Linearise (postgres pqArray) c h [] []).args)
    simp only [Nat.lt_irrefl, if_false, gt_iff_lt]
    simp only [hr]
    simp

theorem LineariseRange_joiner_free {V : Type} (pqArray : List V → V) (j k : List Byte)
    (cs : List (Expr V)) (i : Nat) (h : PostgresHandler) (b c : List Byte) (a : List V) :
    (LineariseRange (postgres pqArray) j cs i h b a).args =
        (LineariseRange (postgres pqArray) k cs i h c a).args ∧
      (LineariseRange (postgres pqArray) j cs i h b a).h =
        (LineariseRange (postgres pqArray) k cs i h c a).h := by
  induction cs generalizing i h b c a with
  | nil => simp [LineariseRange]
  | cons e es ih =>
    simp only [LineariseRange]
    rw [Linearise_append pqArray e h (if i > 0 then b ++ j else b) a,
      Linearise_append pqArray e h (if i > 0 then c ++ k else c) a]
    exact ih _ _ _ _ _

mutual
theorem leafArgs_eq_placeholderArgs {V : Type} (pqArray : List V → V) (e : Expr V) :
    leafArgs pqArray e = placeholderArgs (tokens pqArray e) := by
  cases e with
  | Eq Ident Value => simp [leafArgs, tokens, placeholderArgs]
  | Neq Ident Value => simp [leafArgs, tokens, placeholderArgs]
  | EqAny Ident Values => simp [leafArgs, tokens, placeholderArgs]
  | NeqAll Ident Values => simp [leafArgs, tokens, placeholderArgs]
  | And Exprs =>
    simp [leafArgs, tokens, placeholderArgs, placeholderArgs_append,
      leafArgsList_eq_placeholderArgs pqArray (ascii " AND ") Exprs 0]
  | Or Exprs =>
    simp [leafArgs, tokens, placeholderArgs, placeholderArgs_append,
      leafArgsList_eq_placeholderArgs pqArray (ascii " OR ") Exprs 0]
  | IsNull Ident => simp [leafArgs, tokens, placeholderArgs]
  | IsNotNull Ident => simp [leafArgs, tokens, placeholderArgs]
  | Lt Ident Value => simp [leafArgs, tokens, placeholderArgs]
theorem leafArgsList_eq_placeholderArgs {V : Type} (pqArray : List V → V) (joiner : List Byte)
    (es : List (Expr V)) (i : Nat) :
    leafArgsList pqArray es = placeholderArgs (tokensJoined pqArray joiner es i) := by
  cases es with
  | nil => simp [leafArgsList, tokensJoined, placeholderArgs]
  | cons e es =>
    simp only [leafArgsList, tokensJoined, placeholderArgs_append]
    rw [leafArgs_eq_placeholderArgs pqArray e,
      leafArgsList_eq_placeholderArgs pqArray joiner es (i + 1)]
    by_cases hi : i > 0 <;> simp [hi, placeholderArgs]
end

mutual
theorem leafArgs_length {V : Type} (pqArray : List V → V) (e : Expr V) :
    (leafArgs pqArray e).length = valueLeaves e := by
  cases e with
  | Eq Ident Value => simp [leafArgs, valueLeaves]
  | Neq Ident Value => simp [leafArgs, valueLeaves]
  | EqAny Ident Values => simp [leafArgs, valueLeaves]
  | NeqAll Ident Values => simp [leafArgs, valueLeaves]
  | And Exprs => simp [leafArgs, valueLeaves, leafArgsList_length pqArray Exprs]
  | Or Exprs => simp [leafArgs, valueLeaves, leafArgsList_length pqArray Exprs]
  | IsNull Ident => simp [leafArgs, valueLeaves]
  | IsNotNull Ident => simp [leafArgs, valueLeaves]
  | Lt Ident Value => simp [leafArgs, valueLeaves]
theorem leafArgsList_length {V : Type} (pqArray : List V → V) (es : List (Expr V)) :
    (leafArgsList pqArray es).length = valueLeavesList es := by
  cases es with
  | nil => simp [leafArgsList, valueLeavesList]
  | cons e es =>
    simp [leafArgsList, valueLeavesList, leafArgs_length pqArray e,
      leafArgsList_length pqArray es]
end

theorem wrapInt64_of_range (x : Int) (hlo : minInt64 ≤ x) (hhi : x ≤ maxInt64) :
    wrapInt64 x = x := by
  unfold wrapInt64
  unfold minInt64 at hlo
  unfold maxInt64 at hhi
  norm_num at hlo hhi ⊢
  omega

theorem numberedPlaceholders_succ (n : Int) (k : Nat) :
    numberedPlaceholders n (k + 1) =
      (byte '$' :: AppendInt [] (n + 1)) :: numberedPlaceholders (n + 1) k := by
  unfold numberedPlaceholders
  rw [List.range_succ_eq_map]
  simp only [List.map_cons, List.map_map]
  have h0 : n + 1 + Int.ofNat 0 = n + 1 := by simp
  rw [h0]
  congr 1
  apply List.map_congr_left
  intro j _
  have hj : n + 1 + Int.ofNat (Nat.succ j) = n + 1 + 1 + Int.ofNat j := by
    simp only [Int.ofNat_eq_coe, Nat.cast_succ]
    ring
  simp only [Function.comp, hj]

theorem renderTokens_numbered {V : Type} (ts : List (Token V)) (n : Int)
    (hlo : minInt64 ≤ n) (hhi : n + ((placeholderArgs ts).length : Int) ≤ maxInt64) :
    renderTokens ts ⟨n⟩ =
      (⟨n + ((placeholderArgs ts).length : Int)⟩,
        fillTokens ts (numberedPlaceholders n (placeholderArgs ts).length)) := by
  induction ts generalizing n with
  | nil => simp [renderTokens, fillTokens, placeholderArgs]
  | cons t ts ih =>
    cases t with
    | text bs =>
      simp only [placeholderArgs] at hhi ⊢
      simp [renderTokens, fillTokens, ih n hlo hhi]
    | placeholder arg =>
      simp only [placeholderArgs, List.length_cons, Nat.cast_succ] at hhi ⊢
      have hw : wrapInt64 (n + 1) = n + 1 := by
        apply wrapInt64_of_range
        · omega
        · have := Int.natCast_nonneg (placeholderArgs ts).length
          omega
      have hn : PostgresHandler.NextPlaceholder ⟨n⟩ [] =
          (⟨n + 1⟩, byte '$' :: AppendInt [] (n + 1)) := by
        simp only [PostgresHandler.NextPlaceholder, hw]
        rw [AppendInt_eq_append]
        simp
      have hi := ih (n + 1) (by omega) (by omega)
      simp only [renderTokens, hn, hi, numberedPlaceholders_succ, fillTokens]
      simp
      ring

theorem NextPlaceholder_fresh (b : List Byte) :
    PostgresHandler.fresh.NextPlaceholder b = (⟨1⟩, b ++ ascii "$1") := by
  rw [NextPlaceholder_eq_append]
  have h0 : PostgresHandler.fresh.NextPlaceholder [] = (⟨1⟩, ascii "$1") := by decide
  rw [h0]

theorem NextPlaceholder_eq (h : PostgresHandler) (b : List Byte) :
    h.NextPlaceholder b =
      (⟨wrapInt64 (h.idx + 1)⟩, b ++ byte '$' :: AppendInt [] (wrapInt64 (h.idx + 1))) := by
  simp only [PostgresHandler.NextPlaceholder]
  rw [AppendInt_eq_append]
  simp

theorem NextPlaceholder_in_range (n : Int) (b : List Byte) (hlo : minInt64 ≤ n)
    (hhi : n < maxInt64) :
    PostgresHandler.NextPlaceholder ⟨n⟩ b = (⟨n + 1⟩, b ++ byte '$' :: AppendInt [] (n + 1)) := by
  have hw : wrapInt64 (n + 1) = n + 1 := by
    apply wrapInt64_of_range
    · omega
    · omega
  rw [NextPlaceholder_eq, hw]

theorem nextCounters_in_range (n : Int) (m : Nat) (hlo : minInt64 ≤ n)
    (hhi : n + (m : Int) ≤ maxInt64) :
    nextCounters ⟨n⟩ m = (List.range m).map (fun (j : Nat) => n + 1 + Int.ofNat j) := by
  induction m generalizing n with
  | zero => simp [nextCounters]
  | succ m ih =>
    have hn := NextPlaceholder_in_range n [] hlo (by push_cast at hhi; omega)
    have hi := ih (n + 1) (by omega) (by push_cast at hhi; omega)
    simp only [nextCounters, hn, hi]
    rw [List.range_succ_eq_map]
    simp only [List.map_cons, List.map_map]
    have h0 : n + 1 + Int.ofNat 0 = n + 1 := by simp
    rw [h0]
    congr 1
    apply List.map_congr_left
    intro j _
    have hj : n + 1 + Int.ofNat (Nat.succ j) = n + 1 + 1 + Int.ofNat j := by
      simp only [Int.ofNat_eq_coe, Nat.cast_succ]
      ring
    simp only [Function.comp, hj]

theorem renderTokens_shape {V : Type} (ts : List (Token V)) (h : PostgresHandler) :
    renderTokens (ts.map Token.shape) h = renderTokens ts h := by
  induction ts generalizing h with
  | nil => simp [renderTokens]
  | cons t ts ih =>
    cases t with
    | text bs => simp [renderTokens, Token.shape, ih]
    | placeholder arg => simp [renderTokens, Token.shape, ih]

mutual
theorem tokens_eraseValues {V : Type} (pqArray : List V → V) (e : Expr V) :
    tokens (fun _ => ()) (eraseValues e) = (tokens pqArray e).map Token.shape := by
  cases e with
  | Eq Ident Value => simp [tokens, eraseValues, Token.shape]
  | Neq Ident Value => simp [tokens, eraseValues, Token.shape]
  | EqAny Ident Values => simp [tokens, eraseValues, Token.shape]
  | NeqAll Ident Values => simp [tokens, eraseValues, Token.shape]
  | And Exprs =>
    simp [tokens, eraseValues, Token.shape,
      tokensJoined_eraseValues pqArray (ascii " AND ") Exprs 0]
  | Or Exprs =>
    simp [tokens, eraseValues, Token.shape,
      tokensJoined_eraseValues pqArray (ascii " OR ") Exprs 0]
  | IsNull Ident => simp [tokens, eraseValues, Token.shape]
  | IsNotNull Ident => simp [tokens, eraseValues, Token.shape]
  | Lt Ident Value => simp [tokens, eraseValues, Token.shape]
theorem tokensJoined_eraseValues {V : Type} (pqArray : List V → V) (joiner : List Byte)
    (es : List (Expr V)) (i : Nat) :
    tokensJoined (fun _ => ()) joiner (eraseValuesList es) i =
      (tokensJoined pqArray joiner es i).map Token.shape := by
  cases es with
  | nil => simp [tokensJoined, eraseValuesList]
  | cons e es =>
    simp only [tokensJoined, eraseValuesList, List.map_append]
    rw [tokens_eraseValues pqArray e, tokensJoined_eraseValues pqArray joiner es (i + 1)]
    by_cases hi : i > 0 <;> simp [hi, Token.shape]
end

theorem renderTokens_eraseValues {V : Type} (pqArray : List V → V) (e : Expr V)
    (h : PostgresHandler) :
    renderTokens (tokens pqArray e) h =
      renderTokens (tokens (fun _ => ()) (eraseValues e)) h := by
  rw [tokens_eraseValues pqArray e, renderTokens_shape]

theorem renderTokens_first {V : Type} (ts : List (Token V)) (h : PostgresHandler)
    (hk : placeholderArgs ts ≠ []) :
    ∃ pre arg post, ts = pre ++ Token.placeholder arg :: post ∧ placeholderArgs pre = [] ∧
      (renderTokens ts h).2 =
        fillTokens pre [] ++ (h.NextPlaceholder []).2
          ++ (renderTokens post (h.NextPlaceholder []).1).2 := by
  induction ts with
  | nil => exact absurd rfl hk
  | cons t ts ih =>
    cases t with
    | text bs =>
      obtain ⟨pre, arg, post, hts, hpre, hr⟩ := ih (by simpa [placeholderArgs] using hk)
      refine ⟨Token.text bs :: pre, arg, post, ?_, ?_, ?_⟩
      · simp [hts]
      · simpa [placeholderArgs] using hpre
      · simp [renderTokens, fillTokens, hr]
    | placeholder arg =>
      exact ⟨[], arg, ts, rfl, rfl, by simp [renderTokens, fillTokens]⟩

mutual
theorem LineariseFuel_eq {H V : Type} (hd : Handler H V) (e : Expr V) (fuel : Nat) (h : H)
    (b : List Byte) (a : List V) (hf : depth e ≤ fuel) :
    LineariseFuel hd fuel e h b a = some (Linearise hd e h b a) := by
  cases fuel with
  | zero => cases e <;> simp [depth] at hf
  | succ f =>
    cases e with
    | Eq Ident Value => simp [LineariseFuel, Linearise]
    | Neq Ident Value => simp [LineariseFuel, Linearise]
    | EqAny Ident Values => simp [LineariseFuel, Linearise]
    | NeqAll Ident Values => simp [LineariseFuel, Linearise]
    | And Exprs =>
      have hd1 : depthList Exprs ≤ f := by simp only [depth] at hf; omega
      simp only [LineariseFuel, Linearise,
        LineariseRangeFuel_eq hd (ascii " AND ") Exprs f 0 h (b ++ [byte '(']) a hd1]
    | Or Exprs =>
      have hd1 : depthList Exprs ≤ f := by simp only [depth] at hf; omega
      simp only [LineariseFuel, Linearise,
        LineariseRangeFuel_eq hd (ascii " OR ") Exprs f 0 h (b ++ [byte '(']) a hd1]
    | IsNull Ident => simp [LineariseFuel, Linearise]
    | IsNotNull Ident => simp [LineariseFuel, Linearise]
    | Lt Ident Value => simp [LineariseFuel, Linearise]
theorem LineariseRangeFuel_eq {H V : Type} (hd : Handler H V) (joiner : List Byte)
    (es : List (Expr V)) (fuel i : Nat) (h : H) (b : List Byte) (a : List V)
    (hf : depthList es ≤ fuel) :
    LineariseRangeFuel (LineariseFuel hd fuel) joiner es i h b a =
      some (LineariseRange hd joiner es i h b a) := by
  cases es with
  | nil => simp [LineariseRangeFuel, LineariseRange]
  | cons e es =>
    have h1 : depth e ≤ fuel := by simp only [depthList] at hf; omega
    have h2 : depthList es ≤ fuel := by simp only [depthList] at hf; omega
    simp only [LineariseRangeFuel, LineariseRange,
      LineariseFuel_eq hd e fuel h (if i > 0 then b ++ joiner else b) a h1]
    exact LineariseRangeFuel_eq hd joiner es fuel (i + 1) _ _ _ h2
end

theorem byte_values : byte '0' = 48 ∧ byte '9' = 57 ∧ byte '$' = 36 := by decide

theorem isDigit_ne_dollar (c : Byte) (hc : isDigit c = true) : c ≠ byte '$' := by
  intro h
  rw [h] at hc
  exact absurd hc (by decide)

theorem decimalAux_digits (fuel n : Nat) (acc : List Byte)
    (hacc : ∀ c ∈ acc, isDigit c = true) : ∀ c ∈ decimalAux fuel n acc, isDigit c = true := by
  induction fuel generalizing n acc with
  | zero => simpa [decimalAux] using hacc
  | succ f ih =>
    have hd : isDigit (byte '0' + n % 10) = true := by
      have hm : n % 10 < 10 := Nat.mod_lt n (by decide)
      simp only [isDigit, byte_values.1, byte_values.2.1, Bool.and_eq_true, decide_eq_true_eq]
      exact ⟨Nat.le_add_right 48 (n % 10), Nat.add_le_add_left (Nat.le_of_lt_succ hm) 48⟩
    have hcons : ∀ c ∈ (byte '0' + n % 10) :: acc, isDigit c = true := by
      intro c hc
      rcases List.mem_cons.mp hc with h | h
      · rw [h]; exact hd
      · exact hacc c h
    simp only [decimalAux]
    split
    · exact hcons
    · exact ih (n / 10) _ hcons

theorem decimal_digits (n : Nat) : ∀ c ∈ decimal n, isDigit c = true :=
  decimalAux_digits (n + 1) n [] (by simp)

theorem dollarSuffixes_append_free (xs ys : List Byte) (hx : ∀ c ∈ xs, c ≠ byte '$') :
    dollarSuffixes (xs ++ ys) = dollarSuffixes ys := by
  induction xs with
  | nil => rfl
  | cons c cs ih =>
    have hc : c ≠ byte '$' := hx c (List.mem_cons_self c cs)
    simp only [List.cons_append, dollarSuffixes, hc, if_false]
    exact ih (fun d hd => hx d (List.mem_cons_of_mem c hd))

theorem dollarSuffixes_length (t : List Byte) :
    (dollarSuffixes t).length = List.count (byte '$') t := by
  induction t with
  | nil => rfl
  | cons c cs ih =>
    by_cases hc : c = byte '$'
    · simp [dollarSuffixes, hc, ih]
    · simp [dollarSuffixes, hc, ih, List.count_cons]

theorem digitRun_append (ds rest : List Byte) (hds : ∀ c ∈ ds, isDigit c = true)
    (hrest : rest = [] ∨ ∃ c t, rest = c :: t ∧ isDigit c = false) :
    digitRun (ds ++ rest) = ds := by
  induction ds with
  | nil =>
    rcases hrest with h | ⟨c, t, h, hc⟩
    · simp [digitRun, h]
    · simp [digitRun, h, List.takeWhile, hc]
  | cons d ds ih =>
    have hd : isDigit d = true := hds d (List.mem_cons_self d ds)
    have hi := ih (fun c hc => hds c (List.mem_cons_of_mem d hc))
    simp only [digitRun] at hi
    simp [digitRun, List.takeWhile, hd, hi]

theorem fillTokens_startsClean {V : Type} (ts : List (Token V)) (ps : List (List Byte))
    (hs : startsClean ts = true) :
    fillTokens ts ps = [] ∨ ∃ c t, fillTokens ts ps = c :: t ∧ isDigit c = false := by
  cases ts with
  | nil => exact Or.inl (by simp [fillTokens])
  | cons t ts =>
    cases t with
    | text bs =>
      cases bs with
      | nil => simp [startsClean] at hs
      | cons c cs =>
        refine Or.inr ⟨c, cs ++ fillTokens ts ps, by simp [fillTokens], ?_⟩
        simpa [startsClean] using hs
    | placeholder arg => simp [startsClean] at hs

theorem dollarSuffixes_fillTokens {V : Type} (ts : List (Token V)) (ps : List (List Byte))
    (hlen : ps.length = (placeholderArgs ts).length)
    (hps : ∀ p ∈ ps, ∃ ds, p = byte '$' :: ds ∧ ∀ c ∈ ds, isDigit c = true)
    (hfree : textsDollarFree ts = true) (hsep : separated ts = true) :
    (dollarSuffixes (fillTokens ts ps)).map digitRun = ps.map List.tail := by
  induction ts generalizing ps with
  | nil =>
    have hnil : ps = [] := List.length_eq_zero.mp (by simpa [placeholderArgs] using hlen)
    simp [fillTokens, dollarSuffixes, hnil]
  | cons t ts ih =>
    cases t with
    | text bs =>
      simp only [textsDollarFree, Bool.and_eq_true, Bool.not_eq_true', List.contains_eq_any_beq,
        List.any_eq_false, beq_iff_eq] at hfree
      simp only [separated] at hsep
      simp only [placeholderArgs] at hlen
      have hbs : ∀ c ∈ bs, c ≠ byte '$' := fun c hc => Ne.symm (hfree.1 c hc)
      simp only [fillTokens]
      rw [dollarSuffixes_append_free bs _ hbs]
      exact ih ps hlen hps hfree.2 hsep
    | placeholder arg =>
      simp only [textsDollarFree] at hfree
      simp only [separated, Bool.and_eq_true] at hsep
      cases ps with
      | nil => simp [placeholderArgs] at hlen
      | cons p ps =>
        obtain ⟨ds, hp, hds⟩ := hps p (List.mem_cons_self p ps)
        have hlen1 : ps.length = (placeholderArgs ts).length := by
          simpa [placeholderArgs] using hlen
        have hi := ih ps hlen1 (fun q hq => hps q (List.mem_cons_of_mem p hq)) hfree hsep.2
        have hrun := digitRun_append ds (fillTokens ts ps) hds
          (fillTokens_startsClean ts ps hsep.1)
        have hskip := dollarSuffixes_append_free ds (fillTokens ts ps)
          (fun c hc => isDigit_ne_dollar c (hds c hc))
        simp only [fillTokens, hp, List.cons_append, dollarSuffixes, if_true, List.map_cons,
          List.tail_cons, hrun, hskip, hi]

theorem textsDollarFree_append {V : Type} (ts us : List (Token V)) :
    textsDollarFree (ts ++ us) = (textsDollarFree ts && textsDollarFree us) := by
  induction ts with
  | nil => simp [textsDollarFree]
  | cons t ts ih => cases t <;> simp [textsDollarFree, ih, Bool.and_assoc]

theorem literals_dollar_free :
    (ascii " = ").contains (byte '$') = false ∧ (ascii " <> ").contains (byte '$') = false ∧
      (ascii " = ANY(").contains (byte '$') = false ∧
      (ascii " <> ALL(").contains (byte '$') = false ∧
      (ascii " < ").contains (byte '$') = false ∧
      (ascii " IS NULL").contains (byte '$') = false ∧
      (ascii " IS NOT NULL").contains (byte '$') = false ∧
      (ascii "(").contains (byte '$') = false ∧ (ascii ")").contains (byte '$') = false ∧
      (ascii " AND ").contains (byte '$') = false ∧
      (ascii " OR ").contains (byte '$') = false := by
  decide

mutual
theorem tokens_textsDollarFree {V : Type} (pqArray : List V → V) (e : Expr V)
    (hid : identsDollarFree e = true) : textsDollarFree (tokens pqArray e) = true := by
  obtain ⟨l1, l2, l3, l4, l5, l6, l7, l8, l9, l10, l11⟩ := literals_dollar_free
  cases e with
  | Eq Ident Value =>
    simp only [identsDollarFree] at hid
    simp only [tokens, textsDollarFree, hid, l1, Bool.not_false, Bool.and_self]
  | Neq Ident Value =>
    simp only [identsDollarFree] at hid
    simp only [tokens, textsDollarFree, hid, l2, Bool.not_false, Bool.and_self]
  | EqAny Ident Values =>
    simp only [identsDollarFree] at hid
    simp only [tokens, textsDollarFree, hid, l3, l9, Bool.not_false, Bool.and_self]
  | NeqAll Ident Values =>
    simp only [identsDollarFree] at hid
    simp only [tokens, textsDollarFree, hid, l4, l9, Bool.not_false, Bool.and_self]
  | And Exprs =>
    simp only [identsDollarFree] at hid
    simp only [tokens, textsDollarFree, textsDollarFree_append, l8, l9,
      tokensJoined_textsDollarFree pqArray (ascii " AND ") Exprs 0 hid l10,
      Bool.not_false, Bool.and_self]
  | Or Exprs =>
    simp only [identsDollarFree] at hid
    simp only [tokens, textsDollarFree, textsDollarFree_append, l8, l9,
      tokensJoined_textsDollarFree pqArray (ascii " OR ") Exprs 0 hid l11,
      Bool.not_false, Bool.and_self]
  | IsNull Ident =>
    simp only [identsDollarFree] at hid
    simp only [tokens, textsDollarFree, hid, l6, Bool.not_false, Bool.and_self]
  | IsNotNull Ident =>
    simp only [identsDollarFree] at hid
    simp only [tokens, textsDollarFree, hid, l7, Bool.not_false, Bool.and_self]
  | Lt Ident Value =>
    simp only [identsDollarFree] at hid
    simp only [tokens, textsDollarFree, hid, l5, Bool.not_false, Bool.and_self]
theorem tokensJoined_textsDollarFree {V : Type} (pqArray : List V → V) (joiner : List Byte)
    (es : List (Expr V)) (i : Nat) (hid : identsDollarFreeList es = true)
    (hj : joiner.contains (byte '$') = false) :
    textsDollarFree (tokensJoined pqArray joiner es i) = true := by
  cases es with
  | nil => simp only [tokensJoined, textsDollarFree]
  | cons e es =>
    simp only [identsDollarFreeList, Bool.and_eq_true] at hid
    have h1 := tokens_textsDollarFree pqArray e hid.1
    have h2 := tokensJoined_textsDollarFree pqArray joiner es (i + 1) hid.2 hj
    by_cases hi : i > 0
    · simp only [tokensJoined, textsDollarFree_append, textsDollarFree, hi, if_true, h1, h2, hj,
        Bool.not_false, Bool.and_self]
    · simp only [tokensJoined, textsDollarFree_append, textsDollarFree, hi, if_false, h1, h2,
        Bool.and_self]
end

theorem separated_placeholder {V : Type} (arg : V) (rest : List (Token V))
    (hc : startsClean rest = true) (hs : separated rest = true) :
    separated (Token.placeholder arg :: rest) = true := by
  simp [separated, hc, hs]

theorem startsClean_tokensJoined {V : Type} (pqArray : List V → V) (jc : Byte)
    (js : List Byte) (hjc : isDigit jc = false) (es : List (Expr V)) (i : Nat) (hi : 0 < i)
    (rest : List (Token V)) (hc : startsClean rest = true) :
    startsClean (tokensJoined pqArray (jc :: js) es i ++ rest) = true := by
  cases es with
  | nil => simpa [tokensJoined] using hc
  | cons e es => simp [tokensJoined, hi, startsClean, hjc]

mutual
theorem tokens_separated {V : Type} (pqArray : List V → V) (e : Expr V)
    (rest : List (Token V)) (hc : startsClean rest = true) (hs : separated rest = true) :
    separated (tokens pqArray e ++ rest) = true := by
  have hp : ∀ arg : V, separated (Token.placeholder arg :: rest) = true :=
    fun arg => separated_placeholder arg rest hc hs
  have hclose : startsClean (Token.text (ascii ")") :: rest) = true := by
    simp [startsClean, ascii, isDigit, byte]
  have hcs : separated (Token.text (ascii ")") :: rest) = true := by
    simpa [separated] using hs
  cases e with
  | Eq Ident Value => simpa [tokens, separated] using hp Value
  | Neq Ident Value => simpa [tokens, separated] using hp Value
  | EqAny Ident Values =>
    simpa [tokens, separated] using
      separated_placeholder (pqArray Values) (Token.text (ascii ")") :: rest) hclose hcs
  | NeqAll Ident Values =>
    simpa [tokens, separated] using
      separated_placeholder (pqArray Values) (Token.text (ascii ")") :: rest) hclose hcs
  | And Exprs =>
    have hj := tokensJoined_separated pqArray 32 (ascii "AND ") (by decide) Exprs 0
      (Token.text (ascii ")") :: rest) hclose hcs
    have hjoin : (32 : Byte) :: ascii "AND " = ascii " AND " := by decide
    rw [hjoin] at hj
    simpa [tokens, separated] using hj
  | Or Exprs =>
    have hj := tokensJoined_separated pqArray 32 (ascii "OR ") (by decide) Exprs 0
      (Token.text (ascii ")") :: rest) hclose hcs
    have hjoin : (32 : Byte) :: ascii "OR " = ascii " OR " := by decide
    rw [hjoin] at hj
    simpa [tokens, separated] using hj
  | IsNull Ident => simpa [tokens, separated] using hs
  | IsNotNull Ident => simpa [tokens, separated] using hs
  | Lt Ident Value => simpa [tokens, separated] using hp Value
theorem tokensJoined_separated {V : Type} (pqArray : List V → V) (jc : Byte) (js : List Byte)
    (hjc : isDigit jc = false) (es : List (Expr V)) (i : Nat) (rest : List (Token V))
    (hc : startsClean rest = true) (hs : separated rest = true) :
    separated (tokensJoined pqArray (jc :: js) es i ++ rest) = true := by
  cases es with
  | nil => simpa [tokensJoined] using hs
  | cons e es =>
    have h2 := tokensJoined_separated pqArray jc js hjc es (i + 1) rest hc hs
    have hc2 := startsClean_tokensJoined pqArray jc js hjc es (i + 1) (Nat.succ_pos i) rest hc
    have h1 := tokens_separated pqArray e
      (tokensJoined pqArray (jc :: js) es (i + 1) ++ rest) hc2 h2
    by_cases hi : i > 0
    · simpa [tokensJoined, hi, separated] using h1
    · simpa [tokensJoined, hi, separated] using h1
end

theorem numberedPlaceholders_zero_shape (k : Nat) :
    (∀ p ∈ numberedPlaceholders 0 k, ∃ ds, p = byte '$' :: ds ∧ ∀ c ∈ ds, isDigit c = true) ∧
      (numberedPlaceholders 0 k).length = k ∧
      (numberedPlaceholders 0 k).map List.tail =
        (List.range k).map (fun i => decimal (i + 1)) := by
  have hj : ∀ j : Nat, AppendInt [] (0 + 1 + Int.ofNat j) = decimal (j + 1) := by
    intro j
    have hn : ¬ ((0 : Int) + 1 + Int.ofNat j < 0) := by
      have := Int.natCast_nonneg j
      simp only [Int.ofNat_eq_coe]
      omega
    have ht : ((0 : Int) + 1 + Int.ofNat j).toNat = j + 1 := by
      simp only [Int.ofNat_eq_coe]
      omega
    simp only [AppendInt, hn, if_false, ht, List.nil_append]
  refine ⟨?_, by simp [numberedPlaceholders], ?_⟩
  · intro p hp
    simp only [numberedPlaceholders, List.mem_map] at hp
    obtain ⟨j, _, hpj⟩ := hp
    refine ⟨decimal (j + 1), ?_, decimal_digits (j + 1)⟩
    rw [← hpj, hj]
  · simp only [numberedPlaceholders, List.map_map]
    apply List.map_congr_left
    intro j _
    simp only [Function.comp, List.tail_cons, hj]

theorem NextPlaceholder_at_max (b : List Byte) :
    PostgresHandler.NextPlaceholder ⟨maxInt64⟩ b =
      (⟨minInt64⟩, b ++ ascii "$-9223372036854775808") := by
  rw [NextPlaceholder_eq_append]
  have h0 : PostgresHandler.NextPlaceholder ⟨maxInt64⟩ [] =
      (⟨minInt64⟩, ascii "$-9223372036854775808") := by decide
  rw [h0]

/-! ## Conjunction and disjunction -/

/-- C1: `And{[c_1..c_n]}.Linearise` on a `PostgresHandler` returns the buffer followed by `(`,
the texts of the children joined by ` AND ` (the joiner only between two children), and `)`,
where the text of child `i` is what it appends with the handler left by the children before
it; the returned arguments are the initial ones followed by the children's arguments in child
order. On a fresh handler with empty inputs, `And{[Eq{Var1,1}, Eq{Var2,2}, Eq{Var3,3}]}` gives
`(Var1 = $1 AND Var2 = $2 AND Var3 = $3)` and the arguments `[1, 2, 3]`. -/
theorem And_Linearise_children :
    (∀ (V : Type) (pqArray : List V → V) (cs : List (Expr V)) (h : PostgresHandler)
        (b : List Byte) (a : List V),
      (Linearise (postgres pqArray) (.And cs) h b a).b =
          b ++ ascii "(" ++ List.intercalate (ascii " AND ") (childTexts pqArray cs h)
            ++ ascii ")" ∧
        (Linearise (postgres pqArray) (.And cs) h b a).args =
          a ++ (childArgs pqArray cs h).flatten) ∧
    (∀ pqArray : List Int → Int,
      (PostgresHandler.ToSQL pqArray .fresh
          (.And [.Eq (ascii "Var1") 1, .Eq (ascii "Var2") 2, .Eq (ascii "Var3") 3]) [] []).b =
          ascii "(Var1 = $1 AND Var2 = $2 AND Var3 = $3)" ∧
        (PostgresHandler.ToSQL pqArray .fresh
          (.And [.Eq (ascii "Var1") 1, .Eq (ascii "Var2") 2, .Eq (ascii "Var3") 3]) [] []).args =
          [1, 2, 3]) := by
  refine ⟨?_, ?_⟩
  · intro V pqArray cs h b a
    have hr := LineariseRange_zero pqArray (ascii " AND ") cs h (b ++ [byte '(']) a
    simp only [Linearise, hr]
    constructor
    · simp [ascii, byte]
    · trivial
  · intro pqArray
    simp only [PostgresHandler.ToSQL, Linearise, LineariseRange, postgres,
      PostgresHandler.NextPlaceholder, PostgresHandler.fresh]
    exact ⟨by decide, by decide⟩

/-- C2: `Or{[c_1..c_n]}.Linearise` on a `PostgresHandler` returns the buffer followed by `(`,
the texts of the children joined by ` OR `, and `)`, with the children's arguments appended in
child order; arguments and handler are those of the `And` of the same children. On a fresh
handler with empty inputs, `Or{[Eq{Var1,1}, Eq{Var2,2}, Eq{Var3,3}]}` gives
`(Var1 = $1 OR Var2 = $2 OR Var3 = $3)` and the arguments `[1, 2, 3]`. -/
theorem Or_Linearise_children :
    (∀ (V : Type) (pqArray : List V → V) (cs : List (Expr V)) (h : PostgresHandler)
        (b : List Byte) (a : List V),
      (Linearise (postgres pqArray) (.Or cs) h b a).b =
          b ++ ascii "(" ++ List.intercalate (ascii " OR ") (childTexts pqArray cs h)
            ++ ascii ")" ∧
        (Linearise (postgres pqArray) (.Or cs) h b a).args =
          a ++ (childArgs pqArray cs h).flatten ∧
        (Linearise (postgres pqArray) (.Or cs) h b a).args =
          (Linearise (postgres pqArray) (.And cs) h b a).args ∧
        (Linearise (postgres pqArray) (.Or cs) h b a).h =
          (Linearise (postgres pqArray) (.And cs) h b a).h) ∧
    (∀ pqArray : List Int → Int,
      (PostgresHandler.ToSQL pqArray .fresh
          (.Or [.Eq (ascii "Var1") 1, .Eq (ascii "Var2") 2, .Eq (ascii "Var3") 3]) [] []).b =
          ascii "(Var1 = $1 OR Var2 = $2 OR Var3 = $3)" ∧
        (PostgresHandler.ToSQL pqArray .fresh
          (.Or [.Eq (ascii "Var1") 1, .Eq (ascii "Var2") 2, .Eq (ascii "Var3") 3]) [] []).args =
          [1, 2, 3]) := by
  refine ⟨?_, ?_⟩
  · intro V pqArray cs h b a
    have hr := LineariseRange_zero pqArray (ascii " OR ") cs h (b ++ [byte '(']) a
    have hj := LineariseRange_joiner_free pqArray (ascii " OR ") (ascii " AND ") cs 0 h
      (b ++ [byte '(']) (b ++ [byte '(']) a
    simp only [Linearise, hr]
    refine ⟨?_, trivial, ?_, hj.2⟩
    · simp [ascii, byte]
    · rw [← hj.1, hr.2]
  · intro pqArray
    simp only [PostgresHandler.ToSQL, Linearise, LineariseRange, postgres,
      PostgresHandler.NextPlaceholder, PostgresHandler.fresh]
    exact ⟨by decide, by decide⟩

/-! ## Arguments and placeholders -/

/-- C3: for every tree and every initial argument list, the arguments returned by `Linearise`
with a `PostgresHandler` are the initial ones followed by one entry per value-bearing leaf
(`Eq`, `Neq`, `Lt` their value, `EqAny`, `NeqAll` their wrapped sequence, `IsNull`, `IsNotNull`
nothing), depth first and left to right; these are the arguments bound to the placeholders of
the emitted text in textual order. -/
theorem Linearise_args_depth_first {V : Type} (pqArray : List V → V) (e : Expr V)
    (h : PostgresHandler) (b : List Byte) (a : List V) :
    (Linearise (postgres pqArray) e h b a).args = a ++ leafArgs pqArray e ∧
      (leafArgs pqArray e).length = valueLeaves e ∧
      leafArgs pqArray e = placeholderArgs (tokens pqArray e) ∧
      (Linearise (postgres pqArray) e h b a).b = b ++ (renderTokens (tokens pqArray e) h).2 := by
  refine ⟨?_, leafArgs_length pqArray e, leafArgs_eq_placeholderArgs pqArray e, ?_⟩
  · rw [Linearise_eq_tokens, leafArgs_eq_placeholderArgs]
  · rw [Linearise_eq_tokens]

/-- C4: for a tree with `k` value-bearing leaves and a `PostgresHandler` whose counter is an
`int64` value `n` with `n + k` at most the largest `int64`, the placeholders of the emitted
text are, from left to right and at any nesting depth, `$(n+1)`, ..., `$(n+k)`, and the
counter is `n + k` afterwards; `IsNull` and `IsNotNull` leaves do not count. -/
theorem Linearise_placeholders_consecutive {V : Type} (pqArray : List V → V) (e : Expr V)
    (n : Int) (b : List Byte) (a : List V) (hlo : minInt64 ≤ n)
    (hhi : n + (valueLeaves e : Int) ≤ maxInt64) :
    (Linearise (postgres pqArray) e ⟨n⟩ b a).b =
        b ++ fillTokens (tokens pqArray e) (numberedPlaceholders n (valueLeaves e)) ∧
      (Linearise (postgres pqArray) e ⟨n⟩ b a).h.idx = n + (valueLeaves e : Int) ∧
      (placeholderArgs (tokens pqArray e)).length = valueLeaves e := by
  have hk : (placeholderArgs (tokens pqArray e)).length = valueLeaves e := by
    rw [← leafArgs_eq_placeholderArgs, leafArgs_length]
  have hr := renderTokens_numbered (tokens pqArray e) n hlo (by rw [hk]; exact hhi)
  rw [hk] at hr
  rw [Linearise_eq_tokens, hr]
  exact ⟨rfl, rfl, hk⟩

/-- Instance of C4: a nested tree with three value-bearing leaves and one `IsNull`, on a handler
whose counter is `7`, emits `$8`, `$9`, `$10` and leaves the counter at `10`. -/
theorem Linearise_placeholders_consecutive_witness :
    minInt64 ≤ 7 ∧
    (7 : Int) + (valueLeaves (Expr.And [Expr.Eq (ascii "a") (1 : Int), Expr.IsNull (ascii "b"),
        Expr.Or [Expr.EqAny (ascii "c") [2, 3], Expr.Lt (ascii "d") 4]]) : Int) ≤ maxInt64 ∧
    (Linearise (postgres List.sum) (Expr.And [Expr.Eq (ascii "a") (1 : Int),
        Expr.IsNull (ascii "b"),
        Expr.Or [Expr.EqAny (ascii "c") [2, 3], Expr.Lt (ascii "d") 4]]) ⟨7⟩ [] []).b =
      [] ++ fillTokens (tokens List.sum (Expr.And [Expr.Eq (ascii "a") (1 : Int),
        Expr.IsNull (ascii "b"),
        Expr.Or [Expr.EqAny (ascii "c") [2, 3], Expr.Lt (ascii "d") 4]]))
        (numberedPlaceholders 7 (valueLeaves (Expr.And [Expr.Eq (ascii "a") (1 : Int),
          Expr.IsNull (ascii "b"),
          Expr.Or [Expr.EqAny (ascii "c") [2, 3], Expr.Lt (ascii "d") 4]]))) ∧
    (Linearise (postgres List.sum) (Expr.And [Expr.Eq (ascii "a") (1 : Int),
        Expr.IsNull (ascii "b"),
        Expr.Or [Expr.EqAny (ascii "c") [2, 3], Expr.Lt (ascii "d") 4]]) ⟨7⟩ [] []).h.idx =
      7 + (valueLeaves (Expr.And [Expr.Eq (ascii "a") (1 : Int), Expr.IsNull (ascii "b"),
        Expr.Or [Expr.EqAny (ascii "c") [2, 3], Expr.Lt (ascii "d") 4]]) : Int) ∧
    (placeholderArgs (tokens List.sum (Expr.And [Expr.Eq (ascii "a") (1 : Int),
        Expr.IsNull (ascii "b"),
        Expr.Or [Expr.EqAny (ascii "c") [2, 3], Expr.Lt (ascii "d") 4]]))).length =
      valueLeaves (Expr.And [Expr.Eq (ascii "a") (1 : Int), Expr.IsNull (ascii "b"),
        Expr.Or [Expr.EqAny (ascii "c") [2, 3], Expr.Lt (ascii "d") 4]]) :=
  ⟨by decide, by decide,
    Linearise_placeholders_consecutive List.sum _ 7 [] [] (by decide) (by decide)⟩

/-- C5: linearisation appends: `e.Linearise(h, b, a)` is `(b ++ t, a ++ r)` where `(t, r)` is
what `e.Linearise` returns for a handler with the same counter, an empty buffer and an empty
argument list, and the handler is left in the same state; the same holds through `ToSQL`. -/
theorem Linearise_appends {V : Type} (pqArray : List V → V) (e : Expr V)
    (h : PostgresHandler) (b : List Byte) (a : List V) :
    (Linearise (postgres pqArray) e h b a).b = b ++ (Linearise (postgres pqArray) e h [] []).b ∧
      (Linearise (postgres pqArray) e h b a).args =
        a ++ (Linearise (postgres pqArray) e h [] []).args ∧
      (Linearise (postgres pqArray) e h b a).h = (Linearise (postgres pqArray) e h [] []).h ∧
      (h.ToSQL pqArray e b a).b = b ++ (h.ToSQL pqArray e [] []).b ∧
      (h.ToSQL pqArray e b a).args = a ++ (h.ToSQL pqArray e [] []).args := by
  unfold PostgresHandler.ToSQL
  rw [Linearise_append pqArray e h b a]
  exact ⟨rfl, rfl, rfl, rfl, rfl⟩

/-! ## Leaves on a fresh handler -/

/-- C6: `ToSQL` of `Eq{id, v}` on a fresh `PostgresHandler` with a nil buffer and a nil argument
list returns the text `id ++ " = $1"` and the arguments `[v]`; `Eq{"Var", 1234}` gives
`Var = $1` and `[1234]`. -/
theorem ToSQL_Eq_fresh :
    (∀ (V : Type) (pqArray : List V → V) (id : List Byte) (v : V),
      (PostgresHandler.fresh.ToSQL pqArray (.Eq id v) [] []).b = id ++ ascii " = $1" ∧
        (PostgresHandler.fresh.ToSQL pqArray (.Eq id v) [] []).args = [v]) ∧
    (∀ pqArray : List Int → Int,
      (PostgresHandler.fresh.ToSQL pqArray (.Eq (ascii "Var") 1234) [] []).b =
          ascii "Var = $1" ∧
        (PostgresHandler.fresh.ToSQL pqArray (.Eq (ascii "Var") 1234) [] []).args = [1234]) := by
  have hg : ∀ (V : Type) (pqArray : List V → V) (id : List Byte) (v : V),
      (PostgresHandler.fresh.ToSQL pqArray (.Eq id v) [] []).b = id ++ ascii " = $1" ∧
        (PostgresHandler.fresh.ToSQL pqArray (.Eq id v) [] []).args = [v] := by
    intro V pqArray id v
    simp only [PostgresHandler.ToSQL, Linearise, postgres, NextPlaceholder_fresh]
    simp [ascii]
  exact ⟨hg, fun pqArray => hg Int pqArray (ascii "Var") 1234⟩

/-- C7: `ToSQL` of `Neq{id, v}` on a fresh `PostgresHandler` with a nil buffer and a nil
argument list returns the text `id ++ " <> $1"` and the arguments `[v]`; `Neq{"Var", 1234}`
gives `Var <> $1` and `[1234]`. -/
theorem ToSQL_Neq_fresh :
    (∀ (V : Type) (pqArray : List V → V) (id : List Byte) (v : V),
      (PostgresHandler.fresh.ToSQL pqArray (.Neq id v) [] []).b = id ++ ascii " <> $1" ∧
        (PostgresHandler.fresh.ToSQL pqArray (.Neq id v) [] []).args = [v]) ∧
    (∀ pqArray : List Int → Int,
      (PostgresHandler.fresh.ToSQL pqArray (.Neq (ascii "Var") 1234) [] []).b =
          ascii "Var <> $1" ∧
        (PostgresHandler.fresh.ToSQL pqArray (.Neq (ascii "Var") 1234) [] []).args = [1234]) := by
  have hg : ∀ (V : Type) (pqArray : List V → V) (id : List Byte) (v : V),
      (PostgresHandler.fresh.ToSQL pqArray (.Neq id v) [] []).b = id ++ ascii " <> $1" ∧
        (PostgresHandler.fresh.ToSQL pqArray (.Neq id v) [] []).args = [v] := by
    intro V pqArray id v
    simp only [PostgresHandler.ToSQL, Linearise, postgres, NextPlaceholder_fresh]
    simp [ascii]
  exact ⟨hg, fun pqArray => hg Int pqArray (ascii "Var") 1234⟩

/-- C8: `ToSQL` of `EqAny{id, vs}` on a fresh `PostgresHandler` with a nil buffer and a nil
argument list returns the text `id ++ " = ANY($1)"` and an argument list of length one whose
element is `WrapSlice(vs)`, the whole sequence wrapped once, whatever the length of `vs`; the
counter advances by one. `EqAny{"Var", [1,2,3]}` gives `Var = ANY($1)` and
`[pq.Array([1,2,3])]`. -/
theorem ToSQL_EqAny_fresh :
    (∀ (V : Type) (pqArray : List V → V) (id : List Byte) (vs : List V),
      (PostgresHandler.fresh.ToSQL pqArray (.EqAny id vs) [] []).b = id ++ ascii " = ANY($1)" ∧
        (PostgresHandler.fresh.ToSQL pqArray (.EqAny id vs) [] []).args =
          [PostgresHandler.WrapSlice pqArray PostgresHandler.fresh vs] ∧
        (PostgresHandler.fresh.ToSQL pqArray (.EqAny id vs) [] []).args = [pqArray vs] ∧
        (PostgresHandler.fresh.ToSQL pqArray (.EqAny id vs) [] []).args.length = 1 ∧
        (PostgresHandler.fresh.ToSQL pqArray (.EqAny id vs) [] []).h.idx =
          PostgresHandler.fresh.idx + 1) ∧
    (∀ pqArray : List Int → Int,
      (PostgresHandler.fresh.ToSQL pqArray (.EqAny (ascii "Var") [1, 2, 3]) [] []).b =
          ascii "Var = ANY($1)" ∧
        (PostgresHandler.fresh.ToSQL pqArray (.EqAny (ascii "Var") [1, 2, 3]) [] []).args =
          [pqArray [1, 2, 3]]) := by
  have hg : ∀ (V : Type) (pqArray : List V → V) (id : List Byte) (vs : List V),
      (PostgresHandler.fresh.ToSQL pqArray (.EqAny id vs) [] []).b =
          id ++ ascii " = ANY($1)" ∧
        (PostgresHandler.fresh.ToSQL pqArray (.EqAny id vs) [] []).args =
          [PostgresHandler.WrapSlice pqArray PostgresHandler.fresh vs] ∧
        (PostgresHandler.fresh.ToSQL pqArray (.EqAny id vs) [] []).args = [pqArray vs] ∧
        (PostgresHandler.fresh.ToSQL pqArray (.EqAny id vs) [] []).args.length = 1 ∧
        (PostgresHandler.fresh.ToSQL pqArray (.EqAny id vs) [] []).h.idx =
          PostgresHandler.fresh.idx + 1 := by
    intro V pqArray id vs
    simp only [PostgresHandler.ToSQL, Linearise, postgres, NextPlaceholder_fresh,
      PostgresHandler.WrapSlice]
    simp [ascii, byte, PostgresHandler.fresh]
  exact ⟨hg, fun pqArray =>
    ⟨(hg Int pqArray (ascii "Var") [1, 2, 3]).1, (hg Int pqArray (ascii "Var") [1, 2, 3]).2.2.1⟩⟩

/-- C9: `ToSQL` of `NeqAll{id, vs}` on a fresh `PostgresHandler` with a nil buffer and a nil
argument list returns the text `id ++ " <> ALL($1)"` and an argument list of length one whose
element is `WrapSlice(vs)`, whatever the length of `vs`. `NeqAll{"Var", [1,2,3]}` gives
`Var <> ALL($1)` and `[pq.Array([1,2,3])]`. -/
theorem ToSQL_NeqAll_fresh :
    (∀ (V : Type) (pqArray : List V → V) (id : List Byte) (vs : List V),
      (PostgresHandler.fresh.ToSQL pqArray (.NeqAll id vs) [] []).b =
          id ++ ascii " <> ALL($1)" ∧
        (PostgresHandler.fresh.ToSQL pqArray (.NeqAll id vs) [] []).args =
          [PostgresHandler.WrapSlice pqArray PostgresHandler.fresh vs] ∧
        (PostgresHandler.fresh.ToSQL pqArray (.NeqAll id vs) [] []).args = [pqArray vs] ∧
        (PostgresHandler.fresh.ToSQL pqArray (.NeqAll id vs) [] []).args.length = 1) ∧
    (∀ pqArray : List Int → Int,
      (PostgresHandler.fresh.ToSQL pqArray (.NeqAll (ascii "Var") [1, 2, 3]) [] []).b =
          ascii "Var <> ALL($1)" ∧
        (PostgresHandler.fresh.ToSQL pqArray (.NeqAll (ascii "Var") [1, 2, 3]) [] []).args =
          [pqArray [1, 2, 3]]) := by
  have hg : ∀ (V : Type) (pqArray : List V → V) (id : List Byte) (vs : List V),
      (PostgresHandler.fresh.ToSQL pqArray (.NeqAll id vs) [] []).b =
          id ++ ascii " <> ALL($1)" ∧
        (PostgresHandler.fresh.ToSQL pqArray (.NeqAll id vs) [] []).args =
          [PostgresHandler.WrapSlice pqArray PostgresHandler.fresh vs] ∧
        (PostgresHandler.fresh.ToSQL pqArray (.NeqAll id vs) [] []).args = [pqArray vs] ∧
        (PostgresHandler.fresh.ToSQL pqArray (.NeqAll id vs) [] []).args.length = 1 := by
    intro V pqArray id vs
    simp only [PostgresHandler.ToSQL, Linearise, postgres, NextPlaceholder_fresh,
      PostgresHandler.WrapSlice]
    simp [ascii, byte]
  exact ⟨hg, fun pqArray =>
    ⟨(hg Int pqArray (ascii "Var") [1, 2, 3]).1, (hg Int pqArray (ascii "Var") [1, 2, 3]).2.2.1⟩⟩

/-- C10: `IsNull{id}.Linearise` returns the buffer followed by `id` and ` IS NULL`, returns the
argument list unchanged, and leaves the handler's counter unchanged, for every handler state,
buffer and argument list; on a fresh handler with nil inputs `IsNull{"Var"}` gives
`Var IS NULL` and a nil argument list. -/
theorem IsNull_Linearise_frame :
    (∀ (V : Type) (pqArray : List V → V) (id : List Byte) (h : PostgresHandler)
        (b : List Byte) (a : List V),
      (Linearise (postgres pqArray) (.IsNull id) h b a).b = b ++ id ++ ascii " IS NULL" ∧
        (Linearise (postgres pqArray) (.IsNull id) h b a).args = a ∧
        (Linearise (postgres pqArray) (.IsNull id) h b a).h = h ∧
        (Linearise (postgres pqArray) (.IsNull id) h b a).h.idx = h.idx) ∧
    (∀ pqArray : List Int → Int,
      (PostgresHandler.fresh.ToSQL pqArray (.IsNull (ascii "Var")) [] []).b =
          ascii "Var IS NULL" ∧
        (PostgresHandler.fresh.ToSQL pqArray (.IsNull (ascii "Var")) [] []).args = []) := by
  refine ⟨?_, ?_⟩
  · intro V pqArray id h b a
    simp [Linearise]
  · intro pqArray
    simp only [PostgresHandler.ToSQL, Linearise]
    exact ⟨by decide, trivial⟩

/-- C11: `IsNotNull{id}.Linearise` returns the buffer followed by `id` and ` IS NOT NULL`,
returns the argument list unchanged, and leaves the handler's counter unchanged, for every
handler state, buffer and argument list; on a fresh handler with nil inputs `IsNotNull{"Var"}`
gives `Var IS NOT NULL` and a nil argument list. -/
theorem IsNotNull_Linearise_frame :
    (∀ (V : Type) (pqArray : List V → V) (id : List Byte) (h : PostgresHandler)
        (b : List Byte) (a : List V),
      (Linearise (postgres pqArray) (.IsNotNull id) h b a).b =
          b ++ id ++ ascii " IS NOT NULL" ∧
        (Linearise (postgres pqArray) (.IsNotNull id) h b a).args = a ∧
        (Linearise (postgres pqArray) (.IsNotNull id) h b a).h = h ∧
        (Linearise (postgres pqArray) (.IsNotNull id) h b a).h.idx = h.idx) ∧
    (∀ pqArray : List Int → Int,
      (PostgresHandler.fresh.ToSQL pqArray (.IsNotNull (ascii "Var")) [] []).b =
          ascii "Var IS NOT NULL" ∧
        (PostgresHandler.fresh.ToSQL pqArray (.IsNotNull (ascii "Var")) [] []).args = []) := by
  refine ⟨?_, ?_⟩
  · intro V pqArray id h b a
    simp [Linearise]
  · intro pqArray
    simp only [PostgresHandler.ToSQL, Linearise]
    exact ⟨by decide, trivial⟩

/-- Counterexample to C12 as stated: on a handler whose counter is the largest `int64`,
`Lt{"a", 0}` with empty inputs does not give `a < $` followed by the decimal rendering of the
counter plus one; it gives `a < $-9223372036854775808`. -/
theorem Lt_Linearise_at_max :
    ¬ ((Linearise (postgres List.sum) (Expr.Lt (ascii "a") (0 : Int)) ⟨maxInt64⟩ [] []).b =
        [] ++ ascii "a" ++ ascii " < " ++ ascii "$" ++ AppendInt [] (maxInt64 + 1)) ∧
      (Linearise (postgres List.sum) (Expr.Lt (ascii "a") (0 : Int)) ⟨maxInt64⟩ [] []).b =
        ascii "a < $-9223372036854775808" := by
  decide

/-- C12, amended: for every identifier `id`, value `v`, buffer `b` and argument list `a`, and
every `PostgresHandler` whose counter `n` is an `int64` value below the largest one,
`Lt{id, v}.Linearise` returns the buffer followed by `id`, ` < `, `$` and the decimal rendering
of `n + 1`, and the argument list followed by `v`, and leaves the counter at `n + 1`: one
placeholder is requested and one argument appended. On a fresh handler with empty inputs the
text is `id ++ " < $1"` and the arguments are `[v]`. At the largest `int64` the counter wraps to
the smallest one and the text ends in `$-9223372036854775808`. -/
theorem Lt_Linearise_placeholder {V : Type} (pqArray : List V → V) (id : List Byte) (v : V)
    (n : Int) (b : List Byte) (a : List V) (hlo : minInt64 ≤ n) (hhi : n < maxInt64) :
    ((Linearise (postgres pqArray) (.Lt id v) ⟨n⟩ b a).b =
          b ++ id ++ ascii " < " ++ ascii "$" ++ AppendInt [] (n + 1) ∧
        (Linearise (postgres pqArray) (.Lt id v) ⟨n⟩ b a).args = a ++ [v] ∧
        (Linearise (postgres pqArray) (.Lt id v) ⟨n⟩ b a).h.idx = n + 1) ∧
      ((PostgresHandler.fresh.ToSQL pqArray (.Lt id v) [] []).b = id ++ ascii " < $1" ∧
        (PostgresHandler.fresh.ToSQL pqArray (.Lt id v) [] []).args = [v]) ∧
      ((Linearise (postgres pqArray) (.Lt id v) ⟨maxInt64⟩ b a).b =
          b ++ id ++ ascii " < " ++ ascii "$-9223372036854775808" ∧
        (Linearise (postgres pqArray) (.Lt id v) ⟨maxInt64⟩ b a).args = a ++ [v] ∧
        (Linearise (postgres pqArray) (.Lt id v) ⟨maxInt64⟩ b a).h.idx = minInt64) := by
  refine ⟨?_, ?_, ?_⟩
  · simp only [Linearise, postgres, NextPlaceholder_in_range n _ hlo hhi]
    simp [ascii, byte]
  · simp only [PostgresHandler.ToSQL, Linearise, postgres, NextPlaceholder_fresh]
    simp [ascii]
  · simp only [Linearise, postgres, NextPlaceholder_at_max]
    simp

/-- Instance of C12, amended: `Lt{"age", 30}` on a handler whose counter is `41`, after the
buffer `x` and the argument `9`, gives `xage < $42` and the arguments `[9, 30]`. -/
theorem Lt_Linearise_placeholder_witness :
    minInt64 ≤ 41 ∧ (41 : Int) < maxInt64 ∧
    (Linearise (postgres List.sum) (Expr.Lt (ascii "age") (30 : Int)) ⟨41⟩ (ascii "x") [9]).b =
        ascii "x" ++ ascii "age" ++ ascii " < " ++ ascii "$" ++ AppendInt [] (41 + 1) ∧
      (Linearise (postgres List.sum) (Expr.Lt (ascii "age") (30 : Int)) ⟨41⟩ (ascii "x") [9]).args
        = [9] ++ [30] ∧
      (Linearise (postgres List.sum) (Expr.Lt (ascii "age") (30 : Int)) ⟨41⟩ (ascii "x") [9]).h.idx
        = 41 + 1 :=
  ⟨by decide, by decide,
    (Lt_Linearise_placeholder List.sum (ascii "age") 30 41 (ascii "x") [9]
      (by decide) (by decide)).1⟩

/-! ## The placeholder counter -/

/-- Counterexample to C15 as stated: on a handler whose counter is the largest `int64`, the
counter after `NextPlaceholder` is not that counter plus one and the returned text is not `$`
followed by the base-10 rendering of that counter plus one; the counter is the smallest `int64`
and the text is `$-9223372036854775808`. -/
theorem NextPlaceholder_at_max_not_succ :
    ¬ ((PostgresHandler.NextPlaceholder ⟨maxInt64⟩ []).1.idx = maxInt64 + 1) ∧
      ¬ ((PostgresHandler.NextPlaceholder ⟨maxInt64⟩ []).2 =
        [] ++ [byte '$'] ++ AppendInt [] (maxInt64 + 1)) ∧
      (PostgresHandler.NextPlaceholder ⟨maxInt64⟩ []).1.idx = minInt64 ∧
      (PostgresHandler.NextPlaceholder ⟨maxInt64⟩ []).2 = ascii "$-9223372036854775808" := by
  decide

/-- C15, amended: for every `PostgresHandler` whose counter `n` is an `int64` value below the
largest one and every buffer `b`, `NextPlaceholder(b)` advances the counter by exactly one and
returns `b` followed by the byte `$` and the base-10 rendering of the new counter value `n + 1`;
`b` is kept as it is in front and nothing else is appended. At the largest `int64` the counter
wraps to the smallest one and `b` is followed by `$-9223372036854775808`. -/
theorem NextPlaceholder_appends (n : Int) (b : List Byte) (hlo : minInt64 ≤ n)
    (hhi : n < maxInt64) :
    ((PostgresHandler.NextPlaceholder ⟨n⟩ b).1.idx = n + 1 ∧
        (PostgresHandler.NextPlaceholder ⟨n⟩ b).2 = b ++ [byte '$'] ++ AppendInt [] (n + 1)) ∧
      ((PostgresHandler.NextPlaceholder ⟨maxInt64⟩ b).1.idx = minInt64 ∧
        (PostgresHandler.NextPlaceholder ⟨maxInt64⟩ b).2 =
          b ++ ascii "$-9223372036854775808") := by
  refine ⟨?_, ?_⟩
  · rw [NextPlaceholder_in_range n b hlo hhi]
    simp
  · rw [NextPlaceholder_at_max]
    exact ⟨rfl, rfl⟩

/-- Instance of C15, amended: on a handler whose counter is `9` and the buffer `a = `,
`NextPlaceholder` leaves the counter at `10` and returns `a = $10`. -/
theorem NextPlaceholder_appends_witness :
    minInt64 ≤ 9 ∧ (9 : Int) < maxInt64 ∧
    (PostgresHandler.NextPlaceholder ⟨9⟩ (ascii "a = ")).1.idx = 9 + 1 ∧
      (PostgresHandler.NextPlaceholder ⟨9⟩ (ascii "a = ")).2 =
        ascii "a = " ++ [byte '$'] ++ AppendInt [] (9 + 1) :=
  ⟨by decide, by decide,
    (NextPlaceholder_appends 9 (ascii "a = ") (by decide) (by decide)).1⟩

/-- Counterexample to C16 as stated: at the largest `int64` the counter after a call of
`NextPlaceholder` is the smallest `int64`, which is not greater than the counter before. -/
theorem NextPlaceholder_wraps_at_max :
    (PostgresHandler.NextPlaceholder ⟨maxInt64⟩ []).1.idx = minInt64 ∧
      ¬ ((PostgresHandler.mk maxInt64).idx
          < (PostgresHandler.NextPlaceholder ⟨maxInt64⟩ []).1.idx) := by
  decide

/-- C16, amended: for every `PostgresHandler` whose counter `n` is an `int64` value and every
number of calls `m + 1` with `n + (m + 1)` at most the largest `int64`, the counter after a call
of `NextPlaceholder` is `n + 1`, greater than the counter before, and the counter values of the
`m + 1` successive calls are `n + 1`, ..., `n + (m + 1)`: strictly increasing from `n` and
pairwise distinct. -/
theorem NextPlaceholder_increasing_below_max (n : Int) (m : Nat) (b : List Byte)
    (hlo : minInt64 ≤ n) (hhi : n + ((m + 1 : Nat) : Int) ≤ maxInt64) :
    (PostgresHandler.NextPlaceholder ⟨n⟩ b).1.idx = n + 1 ∧
      (PostgresHandler.mk n).idx < (PostgresHandler.NextPlaceholder ⟨n⟩ b).1.idx ∧
      nextCounters ⟨n⟩ (m + 1) =
        (List.range (m + 1)).map (fun (j : Nat) => n + 1 + Int.ofNat j) ∧
      List.Pairwise (fun x y => x < y) (n :: nextCounters ⟨n⟩ (m + 1)) ∧
      (nextCounters ⟨n⟩ (m + 1)).Nodup := by
  have hn := NextPlaceholder_in_range n b hlo (by push_cast at hhi; omega)
  have hc := nextCounters_in_range n (m + 1) hlo hhi
  have hp : List.Pairwise (fun x y => x < y)
      (n :: (List.range (m + 1)).map (fun (j : Nat) => n + 1 + Int.ofNat j)) := by
    rw [List.pairwise_cons]
    constructor
    · intro x hx
      rw [List.mem_map] at hx
      obtain ⟨j, _, hj⟩ := hx
      have := Int.natCast_nonneg j
      simp only [Int.ofNat_eq_coe] at hj
      omega
    · rw [List.pairwise_map]
      apply List.Pairwise.imp _ (List.pairwise_lt_range (m + 1))
      intro x y hxy
      simp only [Int.ofNat_eq_coe]
      omega
  rw [hn, hc]
  refine ⟨rfl, by simp, rfl, hp, ?_⟩
  have hq := (List.pairwise_cons.mp hp).2
  exact hq.imp (fun hxy => ne_of_lt hxy)

/-- Instance of C16, amended: three calls on a handler whose counter is `6`. -/
theorem NextPlaceholder_increasing_below_max_witness :
    minInt64 ≤ 6 ∧ (6 : Int) + ((2 + 1 : Nat) : Int) ≤ maxInt64 ∧
    (PostgresHandler.NextPlaceholder ⟨6⟩ []).1.idx = 6 + 1 ∧
      (PostgresHandler.mk 6).idx < (PostgresHandler.NextPlaceholder ⟨6⟩ []).1.idx ∧
      nextCounters ⟨6⟩ (2 + 1) =
        (List.range (2 + 1)).map (fun (j : Nat) => (6 : Int) + 1 + Int.ofNat j) ∧
      List.Pairwise (fun x y => x < y) ((6 : Int) :: nextCounters ⟨6⟩ (2 + 1)) ∧
      (nextCounters ⟨6⟩ (2 + 1)).Nodup :=
  ⟨by decide, by decide,
    NextPlaceholder_increasing_below_max 6 2 [] (by decide) (by decide)⟩

/-! ## Degenerate inputs -/

/-- C17: an `And` and an `Or` with zero children each render `()`: for every handler state,
buffer and argument list the buffer is followed by `()`, no argument is appended and the
handler's counter is unchanged. -/
theorem And_Or_no_children {V : Type} (pqArray : List V → V) (h : PostgresHandler)
    (b : List Byte) (a : List V) :
    (Linearise (postgres pqArray) (.And []) h b a).b = b ++ ascii "()" ∧
      (Linearise (postgres pqArray) (.And []) h b a).args = a ∧
      (Linearise (postgres pqArray) (.And []) h b a).h.idx = h.idx ∧
      (Linearise (postgres pqArray) (.Or []) h b a).b = b ++ ascii "()" ∧
      (Linearise (postgres pqArray) (.Or []) h b a).args = a ∧
      (Linearise (postgres pqArray) (.Or []) h b a).h.idx = h.idx := by
  simp [Linearise, LineariseRange, ascii, byte]

/-- Counterexample to C18 as stated: the text of `Eq{"", 0}` on a fresh handler with empty
inputs is not `= $1`. -/
theorem Eq_empty_ident_not_bare :
    ¬ ((PostgresHandler.fresh.ToSQL List.sum (Expr.Eq [] (0 : Int)) [] []).b = ascii "= $1") := by
  decide

/-- C18, amended: for every value `v`, `Eq{"", v}` on a fresh `PostgresHandler` with an empty
buffer and an empty argument list yields the text ` = $1`, with the space that precedes the
operator, and the arguments `[v]`. -/
theorem Eq_empty_ident_text {V : Type} (pqArray : List V → V) (v : V) :
    (PostgresHandler.fresh.ToSQL pqArray (.Eq [] v) [] []).b = ascii " = $1" ∧
      (PostgresHandler.fresh.ToSQL pqArray (.Eq [] v) [] []).args = [v] := by
  simp only [PostgresHandler.ToSQL, Linearise, postgres, NextPlaceholder_fresh]
  simp [ascii]

/-! ## Values, handlers and termination -/

/-- C14: values are never emitted as text: two trees with the same shape, the same variant at
every node and the same identifiers, whatever their `Value` and `Values` fields (lengths of
`Values` included), linearised with a `PostgresHandler` at the same counter and with the same
initial buffer, return the same text and leave the same counter. -/
theorem Linearise_text_ignores_values {V W : Type} (pqArray : List V → V)
    (pqArray2 : List W → W) (e1 : Expr V) (e2 : Expr W) (h : PostgresHandler) (b : List Byte)
    (a1 : List V) (a2 : List W) (hs : eraseValues e1 = eraseValues e2) :
    (Linearise (postgres pqArray) e1 h b a1).b = (Linearise (postgres pqArray2) e2 h b a2).b ∧
      (Linearise (postgres pqArray) e1 h b a1).h =
        (Linearise (postgres pqArray2) e2 h b a2).h := by
  rw [Linearise_eq_tokens, Linearise_eq_tokens, renderTokens_eraseValues pqArray e1,
    renderTokens_eraseValues pqArray2 e2, hs]
  exact ⟨rfl, rfl⟩

/-- Instance of C14: two nested trees over the same identifiers with different values and
different lengths of `Values`, on a handler whose counter is `3` and after the buffer `q`. -/
theorem Linearise_text_ignores_values_witness :
    eraseValues (Expr.And [Expr.Eq (ascii "a") (1 : Int), Expr.EqAny (ascii "b") [2, 3],
        Expr.Or [Expr.IsNull (ascii "c"), Expr.Lt (ascii "d") 4]]) =
      eraseValues (Expr.And [Expr.Eq (ascii "a") (70 : Int), Expr.EqAny (ascii "b") [],
        Expr.Or [Expr.IsNull (ascii "c"), Expr.Lt (ascii "d") (-1)]]) ∧
    (Linearise (postgres List.sum) (Expr.And [Expr.Eq (ascii "a") (1 : Int),
        Expr.EqAny (ascii "b") [2, 3],
        Expr.Or [Expr.IsNull (ascii "c"), Expr.Lt (ascii "d") 4]]) ⟨3⟩ (ascii "q") [0]).b =
      (Linearise (postgres List.sum) (Expr.And [Expr.Eq (ascii "a") (70 : Int),
        Expr.EqAny (ascii "b") [],
        Expr.Or [Expr.IsNull (ascii "c"), Expr.Lt (ascii "d") (-1)]]) ⟨3⟩ (ascii "q") []).b ∧
    (Linearise (postgres List.sum) (Expr.And [Expr.Eq (ascii "a") (1 : Int),
        Expr.EqAny (ascii "b") [2, 3],
        Expr.Or [Expr.IsNull (ascii "c"), Expr.Lt (ascii "d") 4]]) ⟨3⟩ (ascii "q") [0]).h =
      (Linearise (postgres List.sum) (Expr.And [Expr.Eq (ascii "a") (70 : Int),
        Expr.EqAny (ascii "b") [],
        Expr.Or [Expr.IsNull (ascii "c"), Expr.Lt (ascii "d") (-1)]]) ⟨3⟩ (ascii "q") []).h :=
  ⟨rfl, Linearise_text_ignores_values List.sum List.sum _ _ ⟨3⟩ (ascii "q") [0] [] rfl⟩

/-- C19: no leakage between handlers: two `ToSQL` calls on handlers with the same counter, in
particular on two fresh handlers, return the same text, the same arguments and the same final
counter, so the result depends on the handler only through its counter; and when the tree has
a value-bearing leaf, the first placeholder emitted on a fresh handler is `$1`, preceded only
by literal text. -/
theorem ToSQL_depends_on_counter_only {V : Type} (pqArray : List V → V) (e : Expr V)
    (b : List Byte) (a : List V) (h1 h2 : PostgresHandler) (hidx : h1.idx = h2.idx) :
    h1.ToSQL pqArray e b a = h2.ToSQL pqArray e b a ∧
      (h1.idx = PostgresHandler.fresh.idx →
        h1.ToSQL pqArray e b a = PostgresHandler.fresh.ToSQL pqArray e b a ∧
        h2.ToSQL pqArray e b a = PostgresHandler.fresh.ToSQL pqArray e b a) ∧
      (0 < valueLeaves e →
        ∃ pre arg post, tokens pqArray e = pre ++ Token.placeholder arg :: post ∧
          placeholderArgs pre = [] ∧
          (PostgresHandler.fresh.ToSQL pqArray e b a).b =
            b ++ fillTokens pre [] ++ ascii "$1" ++ (renderTokens post ⟨1⟩).2) := by
  have h12 : h1 = h2 := by
    cases h1; cases h2; simp only [PostgresHandler.mk.injEq]; exact hidx
  subst h12
  refine ⟨rfl, ?_, ?_⟩
  · intro hf
    have h1f : h1 = PostgresHandler.fresh := by
      cases h1; simp only [PostgresHandler.fresh, PostgresHandler.mk.injEq]; exact hf
    subst h1f
    exact ⟨rfl, rfl⟩
  · intro hk
    have hne : placeholderArgs (tokens pqArray e) ≠ [] := by
      intro hnil
      have hl : (placeholderArgs (tokens pqArray e)).length = valueLeaves e := by
        rw [← leafArgs_eq_placeholderArgs, leafArgs_length]
      rw [hnil] at hl
      simp only [List.length_nil] at hl
      omega
    obtain ⟨pre, arg, post, hts, hpre, hr⟩ :=
      renderTokens_first (tokens pqArray e) PostgresHandler.fresh hne
    refine ⟨pre, arg, post, hts, hpre, ?_⟩
    simp only [PostgresHandler.ToSQL]
    rw [Linearise_eq_tokens, hr, NextPlaceholder_fresh]
    simp

/-- Instance of C19: two handlers with counter `0` and a tree whose first leaf bears no value. -/
theorem ToSQL_depends_on_counter_only_witness :
    (PostgresHandler.mk 0).idx = (PostgresHandler.mk (5 - 5)).idx ∧
    ((PostgresHandler.mk 0).ToSQL List.sum
        (Expr.Or [Expr.IsNull (ascii "a"), Expr.Neq (ascii "b") (2 : Int)]) (ascii "q") [7] =
      (PostgresHandler.mk (5 - 5)).ToSQL List.sum
        (Expr.Or [Expr.IsNull (ascii "a"), Expr.Neq (ascii "b") (2 : Int)]) (ascii "q") [7] ∧
      ((PostgresHandler.mk 0).idx = PostgresHandler.fresh.idx →
        (PostgresHandler.mk 0).ToSQL List.sum
            (Expr.Or [Expr.IsNull (ascii "a"), Expr.Neq (ascii "b") (2 : Int)]) (ascii "q") [7] =
          PostgresHandler.fresh.ToSQL List.sum
            (Expr.Or [Expr.IsNull (ascii "a"), Expr.Neq (ascii "b") (2 : Int)]) (ascii "q") [7] ∧
        (PostgresHandler.mk (5 - 5)).ToSQL List.sum
            (Expr.Or [Expr.IsNull (ascii "a"), Expr.Neq (ascii "b") (2 : Int)]) (ascii "q") [7] =
          PostgresHandler.fresh.ToSQL List.sum
            (Expr.Or [Expr.IsNull (ascii "a"), Expr.Neq (ascii "b") (2 : Int)]) (ascii "q") [7]) ∧
      (0 < valueLeaves (Expr.Or [Expr.IsNull (ascii "a"), Expr.Neq (ascii "b") (2 : Int)]) →
        ∃ pre arg post,
          tokens List.sum (Expr.Or [Expr.IsNull (ascii "a"), Expr.Neq (ascii "b") (2 : Int)]) =
            pre ++ Token.placeholder arg :: post ∧
          placeholderArgs pre = [] ∧
          (PostgresHandler.fresh.ToSQL List.sum
              (Expr.Or [Expr.IsNull (ascii "a"), Expr.Neq (ascii "b") (2 : Int)])
              (ascii "q") [7]).b =
            ascii "q" ++ fillTokens pre [] ++ ascii "$1" ++ (renderTokens post ⟨1⟩).2)) :=
  ⟨by decide,
    ToSQL_depends_on_counter_only List.sum _ (ascii "q") [7] ⟨0⟩ ⟨5 - 5⟩ (by decide)⟩

/-- C20: `Linearise` is total on every finite tree: for every tree of the nine variants, every
handler state, buffer and argument list it returns a buffer and an argument list that extend
the given ones, with no failure branch; the nesting of calls is bounded by the depth of the
tree, since a call descends only into the children of its node: run with any bound of at least
`depth e` nested calls it returns, and returns the same result. -/
theorem Linearise_total {V : Type} (pqArray : List V → V) (e : Expr V) (h : PostgresHandler)
    (b : List Byte) (a : List V) :
    (∃ h1 t r, Linearise (postgres pqArray) e h b a = ⟨h1, b ++ t, a ++ r⟩) ∧
      LineariseFuel (postgres pqArray) (depth e) e h b a =
        some (Linearise (postgres pqArray) e h b a) ∧
      (∀ fuel, depth e ≤ fuel →
        LineariseFuel (postgres pqArray) fuel e h b a =
          some (Linearise (postgres pqArray) e h b a)) ∧
      (∀ (H : Type) (hd : Handler H V) (s : H) (fuel : Nat), depth e ≤ fuel →
        LineariseFuel hd fuel e s b a = some (Linearise hd e s b a)) := by
  refine ⟨⟨_, _, _, Linearise_append pqArray e h b a⟩, ?_, ?_, ?_⟩
  · exact LineariseFuel_eq (postgres pqArray) e (depth e) h b a (Nat.le_refl _)
  · intro fuel hf
    exact LineariseFuel_eq (postgres pqArray) e fuel h b a hf
  · intro H hd s fuel hf
    exact LineariseFuel_eq hd e fuel s b a hf

/-- Instance of C20: a tree of depth `3` run with a bound of `5` nested calls. -/
theorem Linearise_total_witness :
    depth (Expr.And [Expr.Or [Expr.Eq [] (1 : Int), Expr.And []], Expr.IsNotNull (ascii "x")])
      ≤ 5 ∧
    LineariseFuel (postgres List.sum) 5
        (Expr.And [Expr.Or [Expr.Eq [] (1 : Int), Expr.And []], Expr.IsNotNull (ascii "x")])
        ⟨0⟩ [] [] =
      some (Linearise (postgres List.sum)
        (Expr.And [Expr.Or [Expr.Eq [] (1 : Int), Expr.And []], Expr.IsNotNull (ascii "x")])
        ⟨0⟩ [] []) :=
  ⟨by decide,
    (Linearise_total List.sum
      (Expr.And [Expr.Or [Expr.Eq [] (1 : Int), Expr.And []], Expr.IsNotNull (ascii "x")])
      ⟨0⟩ [] []).2.2.1 5 (by decide)⟩

/-! ## Placeholders and arguments in the returned text -/

/-- C13: for every tree whose identifiers contain no `$` byte, linearised by `ToSQL` on a fresh
`PostgresHandler` with an empty buffer and an empty argument list, where the returned argument
slice has a length a Go slice can have (at most the largest `int64`), the number of `$` bytes
of the text is the length of the argument list, and the `i`-th `$` (from `1`) is immediately
followed by the decimal rendering of `i`, the position of its argument, and by no further
digit. -/
theorem ToSQL_placeholders_match_args {V : Type} (pqArray : List V → V) (e : Expr V)
    (hid : identsDollarFree e = true)
    (hlen : ((PostgresHandler.fresh.ToSQL pqArray e [] []).args.length : Int) ≤ maxInt64) :
    List.count (byte '$') (PostgresHandler.fresh.ToSQL pqArray e [] []).b =
        (PostgresHandler.fresh.ToSQL pqArray e [] []).args.length ∧
      (dollarSuffixes (PostgresHandler.fresh.ToSQL pqArray e [] []).b).map digitRun =
        (List.range (PostgresHandler.fresh.ToSQL pqArray e [] []).args.length).map
          (fun i => decimal (i + 1)) ∧
      (PostgresHandler.fresh.ToSQL pqArray e [] []).args = leafArgs pqArray e := by
  simp only [PostgresHandler.ToSQL, PostgresHandler.fresh] at hlen ⊢
  rw [Linearise_eq_tokens] at hlen ⊢
  simp only [List.nil_append] at hlen ⊢
  have hr := renderTokens_numbered (tokens pqArray e) 0 (by decide) (by simpa using hlen)
  have hshape := numberedPlaceholders_zero_shape (placeholderArgs (tokens pqArray e)).length
  have hmain := dollarSuffixes_fillTokens (tokens pqArray e)
    (numberedPlaceholders 0 (placeholderArgs (tokens pqArray e)).length)
    hshape.2.1 hshape.1 (tokens_textsDollarFree pqArray e hid)
    (by simpa using tokens_separated pqArray e [] rfl rfl)
  rw [hr]
  simp only
  rw [hshape.2.2] at hmain
  refine ⟨?_, hmain, (leafArgs_eq_placeholderArgs pqArray e).symm⟩
  rw [← dollarSuffixes_length]
  have hl := congrArg List.length hmain
  simpa using hl

/-- Instance of C13: a nested tree with three value-bearing leaves on a fresh handler. -/
theorem ToSQL_placeholders_match_args_witness :
    identsDollarFree (Expr.And [Expr.Eq (ascii "a1") (1 : Int), Expr.IsNull (ascii "b"),
        Expr.Or [Expr.EqAny (ascii "c") [2, 3], Expr.Lt (ascii "d") 4]]) = true ∧
    ((PostgresHandler.fresh.ToSQL List.sum (Expr.And [Expr.Eq (ascii "a1") (1 : Int),
        Expr.IsNull (ascii "b"),
        Expr.Or [Expr.EqAny (ascii "c") [2, 3], Expr.Lt (ascii "d") 4]]) [] []).args.length : Int)
      ≤ maxInt64 ∧
    (List.count (byte '$') (PostgresHandler.fresh.ToSQL List.sum
        (Expr.And [Expr.Eq (ascii "a1") (1 : Int), Expr.IsNull (ascii "b"),
          Expr.Or [Expr.EqAny (ascii "c") [2, 3], Expr.Lt (ascii "d") 4]]) [] []).b =
      (PostgresHandler.fresh.ToSQL List.sum
        (Expr.And [Expr.Eq (ascii "a1") (1 : Int), Expr.IsNull (ascii "b"),
          Expr.Or [Expr.EqAny (ascii "c") [2, 3], Expr.Lt (ascii "d") 4]]) [] []).args.length ∧
    (dollarSuffixes (PostgresHandler.fresh.ToSQL List.sum
        (Expr.And [Expr.Eq (ascii "a1") (1 : Int), Expr.IsNull (ascii "b"),
          Expr.Or [Expr.EqAny (ascii "c") [2, 3], Expr.Lt (ascii "d") 4]]) [] []).b).map digitRun =
      (List.range (PostgresHandler.fresh.ToSQL List.sum
        (Expr.And [Expr.Eq (ascii "a1") (1 : Int), Expr.IsNull (ascii "b"),
          Expr.Or [Expr.EqAny (ascii "c") [2, 3], Expr.Lt (ascii "d") 4]]) [] []).args.length).map
        (fun i => decimal (i + 1)) ∧
    (PostgresHandler.fresh.ToSQL List.sum
        (Expr.And [Expr.Eq (ascii "a1") (1 : Int), Expr.IsNull (ascii "b"),
          Expr.Or [Expr.EqAny (ascii "c") [2, 3], Expr.Lt (ascii "d") 4]]) [] []).args =
      leafArgs List.sum (Expr.And [Expr.Eq (ascii "a1") (1 : Int), Expr.IsNull (ascii "b"),
        Expr.Or [Expr.EqAny (ascii "c") [2, 3], Expr.Lt (ascii "d") 4]])) :=
  ⟨by decide, by decide,
    ToSQL_placeholders_match_args List.sum _ (by decide) (by decide)⟩

end Expr2SQL
